import Mathlib

/-!
Verification of the `graff` directed-graph / layering library.

The source files embedded here are `DFSSorter` / `CoffmanGrahamSorter`
(`part_000`), `OptimizedCoffmanGrahamSorter` (`eventsort.go`) and
`EventGraph` (`eventgraph.go`).  The underlying `DirectedGraph` container
(node set, edge index, `Copy`, `RemoveTransitives`) is not part of the
given sources, so it is modelled from the specification (each such
definition carries a doc comment starting with `Modelled from the spec:`).

Nodes are opaque, equality-comparable identifiers; we model them as `Nat`.
Go's unordered map iteration is modelled by deterministic insertion-order
lists; all properties proved here are order-insensitive.
-/

namespace Graff

/-- Modelled from the spec: a `DirectedGraph` is a set of nodes together
with a relation `edges ⊆ Node × Node` (§3).  Node and edge storage are
modelled as insertion-ordered duplicate-free lists. -/
structure DirectedGraph where
  nodes : List Nat
  edges : List (Nat × Nat)
deriving DecidableEq

namespace DirectedGraph

/-- Modelled from the spec: inserts the node if absent (idempotent). -/
def AddNode (g : DirectedGraph) (n : Nat) : DirectedGraph :=
  if n ∈ g.nodes then g else { g with nodes := g.nodes ++ [n] }

/-- Modelled from the spec: `AddEdge(u, v)` inserts nodes `u`, `v` if
absent, then adds the directed edge `u→v`; idempotent (§4.1). -/
def AddEdge (g : DirectedGraph) (u v : Nat) : DirectedGraph :=
  let g1 := (g.AddNode u).AddNode v
  if (u, v) ∈ g1.edges then g1 else { g1 with edges := g1.edges ++ [(u, v)] }

/-- Modelled from the spec: removes the edge if present; the nodes stay. -/
def RemoveEdge (g : DirectedGraph) (u v : Nat) : DirectedGraph :=
  { g with edges := g.edges.filter (fun e => e ≠ (u, v)) }

/-- Modelled from the spec: `EdgeExists(u, v)` is the sole source of truth
for relation membership (§3). -/
def EdgeExists (g : DirectedGraph) (u v : Nat) : Bool :=
  decide ((u, v) ∈ g.edges)

/-- Modelled from the spec: the nodes reachable from `n` via a single
outgoing directed edge. -/
def OutgoingEdges (g : DirectedGraph) (n : Nat) : List Nat :=
  (g.edges.filter (fun e => e.1 == n)).map (fun e => e.2)

/-- Modelled from the spec: the nodes with a single directed edge into `n`. -/
def IncomingEdges (g : DirectedGraph) (n : Nat) : List Nat :=
  (g.edges.filter (fun e => e.2 == n)).map (fun e => e.1)

/-- Modelled from the spec: `Nodes()` returns the node sequence. -/
def Nodes (g : DirectedGraph) : List Nat := g.nodes

/-- Modelled from the spec: `NodeCount`. -/
def NodeCount (g : DirectedGraph) : Nat := g.nodes.length

/-- Modelled from the spec: `Copy` is a deep structural clone with no
aliasing; in this pure model a clone is the value itself. -/
def Copy (g : DirectedGraph) : DirectedGraph := g

end DirectedGraph

/-- Well-formedness of a `DirectedGraph` (the invariants of §3, which every
graph built through `AddEdge`/`AddNode` satisfies): no duplicate nodes, and
every node appearing in `edges` is a member of the node set. -/
structure WF (g : DirectedGraph) : Prop where
  nodup : g.nodes.Nodup
  closed : ∀ p ∈ g.edges, p.1 ∈ g.nodes ∧ p.2 ∈ g.nodes

/-- Position of the first occurrence of `a` in `l` (used to state
"appears before" properties of topological orders). -/
def idxO : List Nat → Nat → Nat
  | [], _ => 0
  | b :: t, a => if b = a then 0 else idxO t a + 1

/-- One-step edge relation of the graph, as a `Prop`. -/
def Edge (g : DirectedGraph) (u v : Nat) : Prop := g.EdgeExists u v = true

/-- Reachability: reflexive-transitive closure of the edge relation. -/
def Reach (g : DirectedGraph) : Nat → Nat → Prop :=
  Relation.ReflTransGen (Edge g)

/-- A graph is acyclic when no edge closes a reachability loop. -/
def Acyclic (g : DirectedGraph) : Prop :=
  ∀ u v : Nat, Edge g u v → ¬ Reach g v u

/-- A graph contains a cycle: some edge closes a reachability loop.  (Every
node lies in the graph's own node set, so any cycle is reachable from one
of the traversal's starting nodes.) -/
def Cyclic (g : DirectedGraph) : Prop :=
  ∃ u v : Nat, Edge g u v ∧ Reach g v u

instance instDecidableEdge (g : DirectedGraph) (u v : Nat) : Decidable (Edge g u v) :=
  instDecidableEqBool (g.EdgeExists u v) true

/-- Bounded-depth reachability test (computable companion of `Reach`):
`reachableB g fuel a b` searches for a path from `a` to `b` of length at
most `fuel`.  Defined by primitive recursion so it evaluates by `rfl`. -/
def reachableB (g : DirectedGraph) (fuel : Nat) : Nat → Nat → Bool :=
  Nat.rec (motive := fun _ => Nat → Nat → Bool)
    (fun a b => a == b)
    (fun _ ih a b => a == b || (g.OutgoingEdges a).any (fun w => ih w b))
    fuel

/-- Error values of the library (`ErrCyclicGraph`, `ErrDependencyOrder`).
`outOfFuel` is an artifact of embedding Go's unbounded recursion with a
fuel parameter; it is proved unreachable for the fuel the sorter passes. -/
inductive GraffError where
  | cyclicGraph
  | dependencyOrder
  | outOfFuel
deriving DecidableEq

/-- The mutable fields of a `DFSSorter` (`sorted`, `visiting`,
`discovered`); the Go maps `visiting`/`discovered` are modelled as
membership lists. -/
structure DFSState where
  sorted : List Nat
  visiting : List Nat
  discovered : List Nat
deriving DecidableEq

/-- Runs a visit function over a list of nodes, threading the sorter state
and stopping at the first error.  This is the shape of both the loop over
`s.graph.Nodes()` in `DFSSorter.Sort` and the loop over
`s.graph.OutgoingEdges(node)` in `DFSSorter.visit`. -/
def visitList (visit1 : DFSState → Nat → Except GraffError DFSState) :
    DFSState → List Nat → Except GraffError DFSState
  | st, [] => .ok st
  | st, m :: rest =>
    match visit1 st m with
    | .error e => .error e
    | .ok st2 => visitList visit1 st2 rest

/-- `DFSSorter.visit`: return at a permanent mark, fail at a temporary
mark (cycle), otherwise mark temporarily, visit the outgoing neighbours,
mark permanently, drop the temporary mark and append the node to `sorted`.
The `fuel` argument bounds the recursion depth (Go recurses natively). -/
def visitFuel (g : DirectedGraph) : Nat → DFSState → Nat → Except GraffError DFSState
  | 0, _, _ => .error .outOfFuel
  | fuel + 1, st, n =>
    if n ∈ st.discovered then .ok st
    else if n ∈ st.visiting then .error .cyclicGraph
    else
      match visitList (visitFuel g fuel) { st with visiting := n :: st.visiting }
          (g.OutgoingEdges n) with
      | .error e => .error e
      | .ok st2 => .ok ⟨st2.sorted ++ [n], st2.visiting.erase n, n :: st2.discovered⟩

/-- `DFSSorter.Sort` / `DirectedGraph.DFSSort`: visit every node starting
from the empty state, then reverse the post-order `sorted` slice.  Each
top-level visit gets fuel `NodeCount + 1`, which exceeds the attainable
recursion depth. -/
def DirectedGraph.DFSSort (g : DirectedGraph) : Except GraffError (List Nat) :=
  match visitList (visitFuel g (g.nodes.length + 1)) ⟨[], [], []⟩ g.Nodes with
  | .error e => .error e
  | .ok st => .ok st.sorted.reverse

/-- The state invariant of a run of the DFS sorter: `discovered` mirrors
`sorted` (in reverse), `sorted` has no duplicates, contains only graph
nodes, and is a reversed topological order of the nodes placed so far
(every outgoing neighbour of a placed node is placed earlier). -/
structure DFSInv (g : DirectedGraph) (st : DFSState) : Prop where
  disc_eq : st.discovered = st.sorted.reverse
  nodup : st.sorted.Nodup
  subNodes : ∀ x ∈ st.sorted, x ∈ g.nodes
  topo : ∀ u v : Nat, g.EdgeExists u v = true → u ∈ st.sorted →
    v ∈ st.sorted ∧ idxO st.sorted v < idxO st.sorted u

/-- What a successful visit guarantees about the state transition. -/
def VisitPost (g : DirectedGraph) (s s' : DFSState) : Prop :=
  DFSInv g s' ∧ s'.visiting = s.visiting ∧
  (∀ x ∈ s.discovered, x ∈ s'.discovered) ∧
  (∀ x ∈ s'.discovered, x ∈ s.discovered ∨ x ∉ s.visiting)

/-- Number of graph nodes not currently carrying a temporary mark; the
recursion depth of `visit` is bounded by it. -/
def unvisitedCount (g : DirectedGraph) (st : DFSState) : Nat :=
  (g.nodes.filter (fun x => decide (x ∉ st.visiting))).length

/-- Shape of a visit result: either success or the cyclic-graph error. -/
def okOrCyc (r : Except GraffError DFSState) : Prop :=
  (∃ s : DFSState, r = .ok s) ∨ r = .error .cyclicGraph

/-- Modelled from the spec: `RemoveTransitives` computes a topological
order via DFS sort on the graph being reduced — on a cyclic graph it fails
with the DFS cycle error, leaving the graph unchanged (its callers ignore
the returned error and rediscover it through their own `DFSSort`) — and
otherwise keeps exactly the edges `(u,v)` such that no other outgoing
neighbour `w ≠ v` of `u` has `v` reachable from `w` (§4.1's equivalent
characterization of dropping every edge implied by a longer path).
Reachability is tested with depth bound `NodeCount`, which suffices on a
DAG where every path visits distinct nodes. -/
def DirectedGraph.RemoveTransitives (g : DirectedGraph) : DirectedGraph :=
  match g.DFSSort with
  | .error _ => g
  | .ok _ =>
    { g with
      edges := g.edges.filter (fun e =>
        ! ((g.OutgoingEdges e.1).any
            (fun w => w != e.2 && reachableB g g.nodes.length w e.2))) }

/-! ## CoffmanGrahamSorter (from `part_000`) and
`OptimizedCoffmanGrahamSorter` (from `eventsort.go`) -/

/-- Lookup in the `levels` map (`map[Node]int`), modelled as an
association list where the most recent binding shadows older ones. -/
def lvlGet : List (Nat × Nat) → Nat → Option Nat
  | [], _ => none
  | (k, v) :: t, x => if k = x then some v else lvlGet t x

/-- The `dependantLevel` loop: iterate over the node's incoming
(predecessor) neighbours; fail with the dependency-order error if one has
no recorded level, otherwise keep the running maximum (started at `-1`). -/
def depLevel (levels : List (Nat × Nat)) : List Nat → Int → Except GraffError Int
  | [], acc => .ok acc
  | d :: rest, acc =>
    match lvlGet levels d with
    | none => .error .dependencyOrder
    | some l => depLevel levels rest (if (l : Int) > acc then (l : Int) else acc)

/-- The inner scan `for i := dependantLevel+1; i < len(layers); i++`:
first index (counting from `base`) of a layer with room below `width`. -/
def firstAvailAux (width : Int) : List (List Nat) → Nat → Option Nat
  | [], _ => none
  | l :: rest, i =>
    if (l.length : Int) < width then some i else firstAvailAux width rest (i + 1)

/-- `level := -1; if dependantLevel < len(layers)-1 { scan }`: the chosen
existing layer, or `none` when a new layer must be created. -/
def findSlot (width : Int) (layers : List (List Nat)) (dl : Int) : Option Nat :=
  if dl < (layers.length : Int) - 1 then
    firstAvailAux width (layers.drop (dl + 1).toNat) (dl + 1).toNat
  else none

/-- Place `node`: append to the found layer, or append a fresh singleton
layer; returns the updated layers and the assigned level. -/
def cgAssign (width : Int) (layers : List (List Nat)) (node : Nat) (dl : Int) :
    List (List Nat) × Nat :=
  match findSlot width layers dl with
  | some i => (layers.set i (layers.getD i [] ++ [node]), i)
  | none => (layers ++ [[node]], layers.length)

/-- The main loop of `CoffmanGrahamSorter.Sort` (also the loop of
`EventSort`, which additionally tracks `maxLevel`, see `cgLoopE`): skip
nodes that already have a level, otherwise compute `dependantLevel` from
the reduced graph's incoming edges and assign the first available layer
after it. -/
def cgLoop (width : Int) (red : DirectedGraph) :
    List Nat → List (List Nat) → List (Nat × Nat) →
      Except GraffError (List (List Nat) × List (Nat × Nat))
  | [], layers, levels => .ok (layers, levels)
  | node :: rest, layers, levels =>
    match lvlGet levels node with
    | some _ => cgLoop width red rest layers levels
    | none =>
      match depLevel levels (red.IncomingEdges node) (-1) with
      | .error e => .error e
      | .ok dl =>
        let p := cgAssign width layers node dl
        cgLoop width red rest p.1 ((node, p.2) :: levels)

/-- The loop of `OptimizedCoffmanGrahamSorter.EventSort`: same as `cgLoop`
but additionally maintains `maxLevel` (started at `-1`, updated whenever a
newly assigned level exceeds it). -/
def cgLoopE (width : Int) (red : DirectedGraph) :
    List Nat → List (List Nat) → List (Nat × Nat) → Int →
      Except GraffError (List (List Nat) × List (Nat × Nat) × Int)
  | [], layers, levels, maxLevel => .ok (layers, levels, maxLevel)
  | node :: rest, layers, levels, maxLevel =>
    match lvlGet levels node with
    | some _ => cgLoopE width red rest layers levels maxLevel
    | none =>
      match depLevel levels (red.IncomingEdges node) (-1) with
      | .error e => .error e
      | .ok dl =>
        let p := cgAssign width layers node dl
        cgLoopE width red rest p.1 ((node, p.2) :: levels)
          (if maxLevel = -1 ∨ maxLevel < (p.2 : Int) then (p.2 : Int) else maxLevel)

/-- The loop of `CoffmanGrahamSorter.OrigSort`: identical except that it
starts from fresh `layers`/`levels` and has no already-assigned skip. -/
def origLoop (width : Int) (red : DirectedGraph) :
    List Nat → List (List Nat) → List (Nat × Nat) →
      Except GraffError (List (List Nat) × List (Nat × Nat))
  | [], layers, levels => .ok (layers, levels)
  | node :: rest, layers, levels =>
    match depLevel levels (red.IncomingEdges node) (-1) with
    | .error e => .error e
    | .ok dl =>
      let p := cgAssign width layers node dl
      origLoop width red rest p.1 ((node, p.2) :: levels)

/-- `CoffmanGrahamSorter`: graph, width and the persisted
`layers`/`levels`/`level` state. -/
structure CoffmanGrahamSorter where
  graph : DirectedGraph
  width : Int
  layers : List (List Nat)
  levels : List (Nat × Nat)
  level : Int
deriving DecidableEq

/-- `NewCoffmanGrahamSorter`. -/
def NewCoffmanGrahamSorter (graph : DirectedGraph) (width : Int) : CoffmanGrahamSorter :=
  ⟨graph, width, [], [], 0⟩

/-- `CoffmanGrahamSorter.Sort`: copy and transitively reduce the graph,
topologically sort it, then run the layering loop from the persisted
state.  Returns the result together with the updated sorter.

On the Go side `s.level = level` at the end of `Sort` assigns the outer
`level` variable, which still holds the original `s.level`: the `level`
updated inside the loop body is a fresh variable (`level := -1`) that
shadows it and dies at the end of each iteration.  The persisted `level`
field is therefore unchanged by a call to `Sort`.  (On the
dependency-order error path Go's shared `levels` map would retain
assignments made before the error while `s.layers` keeps its length; no
property below observes the sorter state after that error, and no node's
existing level entry is ever overwritten on any path, so the model returns
the sorter unchanged there.) -/
def CoffmanGrahamSorter.Sort (s : CoffmanGrahamSorter) :
    Except GraffError (List (List Nat)) × CoffmanGrahamSorter :=
  let reduced := (s.graph.Copy).RemoveTransitives
  match reduced.DFSSort with
  | .error e => (.error e, s)
  | .ok nodes =>
    match cgLoop s.width reduced nodes s.layers s.levels with
    | .error e => (.error e, s)
    | .ok p => (.ok p.1, { s with layers := p.1, levels := p.2, level := s.level })

/-- `CoffmanGrahamSorter.OrigSort`: the original implementation; identical
pipeline but with fresh `layers`/`levels` and no persisted state (it
mutates nothing on the sorter). -/
def CoffmanGrahamSorter.OrigSort (s : CoffmanGrahamSorter) :
    Except GraffError (List (List Nat)) :=
  let reduced := (s.graph.Copy).RemoveTransitives
  match reduced.DFSSort with
  | .error e => .error e
  | .ok nodes =>
    match origLoop s.width reduced nodes [] [] with
    | .error e => .error e
    | .ok p => .ok p.1

/-- `func (g *DirectedGraph) CoffmanGrahamSorter(width)`. -/
def DirectedGraph.CoffmanGrahamSorterOf (g : DirectedGraph) (width : Int) :
    CoffmanGrahamSorter :=
  NewCoffmanGrahamSorter g width

/-- `DirectedGraph.CoffmanGrahamSort`: one-shot convenience wrapper over a
fresh sorter. -/
def DirectedGraph.CoffmanGrahamSort (g : DirectedGraph) (width : Int) :
    Except GraffError (List (List Nat)) :=
  ((NewCoffmanGrahamSorter g width).Sort).1

/-- `OptimizedCoffmanGrahamSorter` (from `eventsort.go`): same fields as
`CoffmanGrahamSorter`. -/
structure OptimizedCoffmanGrahamSorter where
  graph : DirectedGraph
  width : Int
  layers : List (List Nat)
  levels : List (Nat × Nat)
  level : Int
deriving DecidableEq

/-- `NewOptimizedCoffmanGrahamSorter`. -/
def NewOptimizedCoffmanGrahamSorter (graph : DirectedGraph) (width : Int) :
    OptimizedCoffmanGrahamSorter :=
  ⟨graph, width, [], [], 0⟩

/-- `OptimizedCoffmanGrahamSorter.EventSort`: the incremental variant; the
loop additionally tracks `maxLevel`, and at the end `s.level = maxLevel`
(correctly the maximum over the nodes assigned in this call, `-1` when
none were). -/
def OptimizedCoffmanGrahamSorter.EventSort (s : OptimizedCoffmanGrahamSorter) :
    Except GraffError (List (List Nat)) × OptimizedCoffmanGrahamSorter :=
  let reduced := (s.graph.Copy).RemoveTransitives
  match reduced.DFSSort with
  | .error e => (.error e, s)
  | .ok nodes =>
    match cgLoopE s.width reduced nodes s.layers s.levels (-1) with
    | .error e => (.error e, s)
    | .ok p =>
      (.ok p.1, { s with layers := p.1, levels := p.2.1, level := p.2.2 })

/-- `func (g *DirectedGraph) OptimizedCoffmanGrahamSorter(width)`. -/
def DirectedGraph.OptimizedCoffmanGrahamSorterOf (g : DirectedGraph) (width : Int) :
    OptimizedCoffmanGrahamSorter :=
  NewOptimizedCoffmanGrahamSorter g width

/-! ## EventGraph (from `eventgraph.go`) -/

/-- `EventGraph` wraps a `DirectedGraph`. -/
structure EventGraph where
  graph : DirectedGraph
deriving DecidableEq

/-- `NewEventGraph`. -/
def NewEventGraph : EventGraph := ⟨⟨[], []⟩⟩

/-- `EventGraph.Copy`. -/
def EventGraph.Copy (g : EventGraph) : EventGraph := ⟨g.graph.Copy⟩

/-- `EventGraph.AddEdge(from, to)` forwards to the wrapped graph with the
two node arguments swapped. -/
def EventGraph.AddEdge (g : EventGraph) (a b : Nat) : EventGraph :=
  ⟨g.graph.AddEdge b a⟩

/-- `EventGraph.RemoveEdge(from, to)`, arguments swapped. -/
def EventGraph.RemoveEdge (g : EventGraph) (a b : Nat) : EventGraph :=
  ⟨g.graph.RemoveEdge b a⟩

/-- `EventGraph.EdgeExists(from, to)`, arguments swapped. -/
def EventGraph.EdgeExists (g : EventGraph) (a b : Nat) : Bool :=
  g.graph.EdgeExists b a

/-- Precondition of the layering loop: every reduced-graph predecessor of
a pending node either already has a recorded level or occurs earlier in
the pending list (as the topological order guarantees). -/
def PredOK (red : DirectedGraph) (todo : List Nat) (levels : List (Nat × Nat)) : Prop :=
  ∀ n d : Nat, n ∈ todo → red.EdgeExists d n = true →
    (lvlGet levels d).isSome = true ∨ (d ∈ todo ∧ idxO todo d < idxO todo n)

-- ===== end of definitions =====

theorem mem_OutgoingEdges {g : DirectedGraph} {u v : Nat} :
    v ∈ g.OutgoingEdges u ↔ g.EdgeExists u v = true := by
  simp only [DirectedGraph.OutgoingEdges, DirectedGraph.EdgeExists, List.mem_map,
    List.mem_filter, decide_eq_true_eq, beq_iff_eq]
  constructor
  · rintro ⟨⟨a, b⟩, ⟨hm, h1⟩, h2⟩
    cases h1; cases h2; exact hm
  · intro hm
    exact ⟨(u, v), ⟨hm, rfl⟩, rfl⟩

theorem mem_IncomingEdges {g : DirectedGraph} {u v : Nat} :
    u ∈ g.IncomingEdges v ↔ g.EdgeExists u v = true := by
  simp only [DirectedGraph.IncomingEdges, DirectedGraph.EdgeExists, List.mem_map,
    List.mem_filter, decide_eq_true_eq, beq_iff_eq]
  constructor
  · rintro ⟨⟨a, b⟩, ⟨hm, h1⟩, h2⟩
    cases h1; cases h2; exact hm
  · intro hm
    exact ⟨(u, v), ⟨hm, rfl⟩, rfl⟩

theorem EdgeExists_mem_edges {g : DirectedGraph} {u v : Nat} :
    g.EdgeExists u v = true ↔ (u, v) ∈ g.edges := by
  simp [DirectedGraph.EdgeExists]

theorem idxO_lt_length {l : List Nat} {a : Nat} (h : a ∈ l) : idxO l a < l.length := by
  induction l with
  | nil => cases h
  | cons b t ih =>
    by_cases hb : b = a
    · simp [idxO, hb]
    · rcases List.mem_cons.mp h with h' | h'
      · exact absurd h'.symm hb
      · simpa [idxO, hb] using ih h'

theorem idxO_append_left {l : List Nat} {a : Nat} (l' : List Nat) (h : a ∈ l) :
    idxO (l ++ l') a = idxO l a := by
  induction l with
  | nil => cases h
  | cons b t ih =>
    by_cases hb : b = a
    · simp [idxO, hb]
    · rcases List.mem_cons.mp h with h' | h'
      · exact absurd h'.symm hb
      · simp [idxO, hb, ih h']

theorem idxO_append_self {l : List Nat} {a : Nat} (h : a ∉ l) :
    idxO (l ++ [a]) a = l.length := by
  induction l with
  | nil => simp [idxO]
  | cons b t ih =>
    have hb : b ≠ a := fun hba => h (hba ▸ List.mem_cons_self b t)
    have ht : a ∉ t := fun hm => h (List.mem_cons_of_mem _ hm)
    simp [idxO, hb, ih ht]

theorem idxO_cons_ne {l : List Nat} {a b : Nat} (h : b ≠ a) :
    idxO (b :: l) a = idxO l a + 1 := by
  simp [idxO, h]

theorem idxO_head (l : List Nat) (a : Nat) : idxO (a :: l) a = 0 := by
  simp [idxO]

theorem idxO_reverse {l : List Nat} (hnd : l.Nodup) {x : Nat} (hx : x ∈ l) :
    idxO l.reverse x + idxO l x + 1 = l.length := by
  induction l with
  | nil => cases hx
  | cons b t ih =>
    rcases List.nodup_cons.mp hnd with ⟨hb, ht⟩
    rcases List.mem_cons.mp hx with h' | h'
    · subst h'
      have : x ∉ t.reverse := by simpa using hb
      simp [idxO_head, List.reverse_cons, idxO_append_self this]
    · have hbx : b ≠ x := fun hbx => hb (hbx ▸ h')
      have hxr : x ∈ t.reverse := by simpa using h'
      have := ih ht h'
      simp only [List.reverse_cons, idxO_append_left [b] hxr, idxO_cons_ne hbx,
        List.length_cons]
      omega

/-- Going from a list to its reverse flips the strict order of first
occurrences of (distinct, present) elements. -/
theorem idxO_reverse_lt {l : List Nat} (hnd : l.Nodup) {a b : Nat}
    (ha : a ∈ l) (hb : b ∈ l) (h : idxO l b < idxO l a) :
    idxO l.reverse a < idxO l.reverse b := by
  have h1 := idxO_reverse hnd ha
  have h2 := idxO_reverse hnd hb
  omega

theorem reachableB_zero (g : DirectedGraph) (a b : Nat) :
    reachableB g 0 a b = (a == b) := rfl

theorem reachableB_succ (g : DirectedGraph) (fuel : Nat) (a b : Nat) :
    reachableB g (fuel + 1) a b
      = (a == b || (g.OutgoingEdges a).any (fun w => reachableB g fuel w b)) := rfl

theorem reachableB_sound {g : DirectedGraph} {fuel : Nat} {a b : Nat}
    (h : reachableB g fuel a b = true) : Reach g a b := by
  induction fuel generalizing a with
  | zero =>
    rw [reachableB_zero] at h
    have hab : a = b := by simpa using h
    exact hab ▸ Relation.ReflTransGen.refl
  | succ fuel ih =>
    rw [reachableB_succ, Bool.or_eq_true] at h
    rcases h with h | h
    · have hab : a = b := by simpa using h
      exact hab ▸ Relation.ReflTransGen.refl
    · rcases List.any_eq_true.mp h with ⟨w, hw, hr⟩
      exact Relation.ReflTransGen.head (mem_OutgoingEdges.mp hw) (ih hr)

/-- `reachableB` is monotone in the edge set (with the same fuel). -/
theorem reachableB_mono {g g' : DirectedGraph}
    (hsub : ∀ u v : Nat, g'.EdgeExists u v = true → g.EdgeExists u v = true)
    {fuel : Nat} {a b : Nat} (h : reachableB g' fuel a b = true) :
    reachableB g fuel a b = true := by
  induction fuel generalizing a with
  | zero => rwa [reachableB_zero] at h ⊢
  | succ fuel ih =>
    rw [reachableB_succ, Bool.or_eq_true] at h ⊢
    rcases h with h | h
    · exact Or.inl h
    · rcases List.any_eq_true.mp h with ⟨w, hw, hr⟩
      exact Or.inr (List.any_eq_true.mpr
        ⟨w, mem_OutgoingEdges.mpr (hsub _ _ (mem_OutgoingEdges.mp hw)), ih hr⟩)

/-- Reachability is monotone in the edge set. -/
theorem Reach_mono {g g' : DirectedGraph}
    (hsub : ∀ u v : Nat, g'.EdgeExists u v = true → g.EdgeExists u v = true)
    {a b : Nat} (h : Reach g' a b) : Reach g a b := by
  induction h with
  | refl => exact Relation.ReflTransGen.refl
  | tail _ hstep ih => exact Relation.ReflTransGen.tail ih (hsub _ _ hstep)

/-! ## DFSSorter (from `part_000`) -/

/-- A successful `visit` leaves the `visiting` set exactly as it found it
(the temporary mark is pushed and then erased). -/
theorem visitFuel_visiting {g : DirectedGraph} :
    ∀ {fuel : Nat} {st : DFSState} {n : Nat} {st' : DFSState},
      visitFuel g fuel st n = .ok st' → st'.visiting = st.visiting := by
  intro fuel
  induction fuel with
  | zero => intro st n st' h; simp [visitFuel] at h
  | succ fuel ih =>
    intro st n st' h
    rw [visitFuel] at h
    by_cases hd : n ∈ st.discovered
    · simp only [if_pos hd] at h
      cases h; rfl
    · by_cases hv : n ∈ st.visiting
      · simp [if_neg hd, if_pos hv] at h
      · simp only [if_neg hd, if_neg hv] at h
        set st1 : DFSState := { st with visiting := n :: st.visiting } with hst1
        have hlist : ∀ {l : List Nat} {s s' : DFSState},
            visitList (visitFuel g fuel) s l = .ok s' → s'.visiting = s.visiting := by
          intro l
          induction l with
          | nil => intro s s' h'; cases h'; rfl
          | cons m rest ihl =>
            intro s s' h'
            rw [visitList] at h'
            cases hm : visitFuel g fuel s m with
            | error e => rw [hm] at h'; cases h'
            | ok s2 =>
              rw [hm] at h'
              exact (ihl h').trans (ih hm)
        cases hrun : visitList (visitFuel g fuel) st1 (g.OutgoingEdges n) with
        | error e => rw [hrun] at h; cases h
        | ok st2 =>
          rw [hrun] at h
          cases h
          have : st2.visiting = n :: st.visiting := hlist hrun
          simp [this]

/-- `visitList` version of `visitFuel_visiting`. -/
theorem visitList_visiting {g : DirectedGraph} {fuel : Nat} :
    ∀ {l : List Nat} {s s' : DFSState},
      visitList (visitFuel g fuel) s l = .ok s' → s'.visiting = s.visiting := by
  intro l
  induction l with
  | nil => intro s s' h; cases h; rfl
  | cons m rest ihl =>
    intro s s' h
    rw [visitList] at h
    cases hm : visitFuel g fuel s m with
    | error e => rw [hm] at h; cases h
    | ok s2 =>
      rw [hm] at h
      exact (ihl h).trans (visitFuel_visiting hm)

theorem VisitPost.comp {g : DirectedGraph} {s mid s' : DFSState}
    (h1 : VisitPost g s mid) (h2 : VisitPost g mid s') : VisitPost g s s' := by
  obtain ⟨_, hv1, hm1, hn1⟩ := h1
  obtain ⟨hi2, hv2, hm2, hn2⟩ := h2
  refine ⟨hi2, hv2.trans hv1, fun x hx => hm2 x (hm1 x hx), fun x hx => ?_⟩
  rcases hn2 x hx with h | h
  · exact hn1 x h
  · exact Or.inr (hv1 ▸ h)

/-- Generic list version: if each single visit satisfies the contract,
then so does visiting a list of graph nodes, and afterwards every node of
the list is discovered. -/
theorem visitList_post {g : DirectedGraph}
    {visit1 : DFSState → Nat → Except GraffError DFSState}
    (H : ∀ {s : DFSState} {m : Nat} {s' : DFSState}, DFSInv g s → m ∈ g.nodes →
      visit1 s m = .ok s' → VisitPost g s s' ∧ m ∈ s'.discovered) :
    ∀ {l : List Nat} {s s' : DFSState}, DFSInv g s → (∀ m ∈ l, m ∈ g.nodes) →
      visitList visit1 s l = .ok s' →
      VisitPost g s s' ∧ (∀ m ∈ l, m ∈ s'.discovered) := by
  intro l
  induction l with
  | nil =>
    intro s s' hInv _ h
    cases h
    exact ⟨⟨hInv, rfl, fun x hx => hx, fun x hx => Or.inl hx⟩, by simp⟩
  | cons m rest ihl =>
    intro s s' hInv hmem h
    rw [visitList] at h
    cases hm : visit1 s m with
    | error e => rw [hm] at h; cases h
    | ok s2 =>
      rw [hm] at h
      obtain ⟨hp1, hdm⟩ := H hInv (hmem m (List.mem_cons_self m rest)) hm
      obtain ⟨hp2, hrest⟩ := ihl hp1.1 (fun x hx => hmem x (List.mem_cons_of_mem _ hx)) h
      refine ⟨hp1.comp hp2, fun x hx => ?_⟩
      rcases List.mem_cons.mp hx with rfl | hx'
      · exact hp2.2.2.1 x hdm
      · exact hrest x hx'

/-- Main preservation lemma for `DFSSorter.visit`: on a well-formed graph
a successful visit preserves the invariant, grows `discovered`
monotonically, never discovers a temporarily-marked node, and leaves the
visited node discovered. -/
theorem visitFuel_post {g : DirectedGraph} (hWF : WF g) :
    ∀ {fuel : Nat} {st : DFSState} {n : Nat} {st' : DFSState},
      DFSInv g st → n ∈ g.nodes → visitFuel g fuel st n = .ok st' →
      VisitPost g st st' ∧ n ∈ st'.discovered := by
  intro fuel
  induction fuel with
  | zero => intro st n st' _ _ h; simp [visitFuel] at h
  | succ fuel ih =>
    intro st n st' hInv hn h
    rw [visitFuel] at h
    by_cases hd : n ∈ st.discovered
    · simp only [if_pos hd] at h
      cases h
      exact ⟨⟨hInv, rfl, fun x hx => hx, fun x hx => Or.inl hx⟩, hd⟩
    · by_cases hv : n ∈ st.visiting
      · simp [if_neg hd, if_pos hv] at h
      · simp only [if_neg hd, if_neg hv] at h
        set st1 : DFSState := { st with visiting := n :: st.visiting } with hst1
        cases hrun : visitList (visitFuel g fuel) st1 (g.OutgoingEdges n) with
        | error e => rw [hrun] at h; cases h
        | ok st2 =>
          rw [hrun] at h
          cases h
          have hInv1 : DFSInv g st1 := ⟨hInv.disc_eq, hInv.nodup, hInv.subNodes, hInv.topo⟩
          have houts : ∀ m ∈ g.OutgoingEdges n, m ∈ g.nodes := by
            intro m hm
            exact (hWF.closed _ (EdgeExists_mem_edges.mp (mem_OutgoingEdges.mp hm))).2
          obtain ⟨⟨hInv2, hvis2, hmono2, hndnv2⟩, hkids⟩ :=
            visitList_post (fun {s m s'} a b c => ih a b c) hInv1 houts hrun
          have hvis2' : st2.visiting = n :: st.visiting := hvis2
          have hndisc2 : n ∉ st2.discovered := by
            intro hmem
            rcases hndnv2 n hmem with h' | h'
            · exact hd h'
            · exact h' (List.mem_cons_self n st.visiting)
          have hnsort2 : n ∉ st2.sorted := by
            intro hmem
            exact hndisc2 (hInv2.disc_eq ▸ List.mem_reverse.mpr hmem)
          have hdisc_eq' : (n :: st2.discovered) = (st2.sorted ++ [n]).reverse := by
            simp [hInv2.disc_eq, List.reverse_append]
          have hnodup' : (st2.sorted ++ [n]).Nodup := by
            simp [List.nodup_append, hInv2.nodup, hnsort2]
          have hsub' : ∀ x ∈ st2.sorted ++ [n], x ∈ g.nodes := by
            intro x hx
            rcases List.mem_append.mp hx with hx' | hx'
            · exact hInv2.subNodes x hx'
            · rcases List.mem_singleton.mp hx' with rfl
              exact hn
          have htopo' : ∀ u v : Nat, g.EdgeExists u v = true → u ∈ st2.sorted ++ [n] →
              v ∈ st2.sorted ++ [n] ∧
                idxO (st2.sorted ++ [n]) v < idxO (st2.sorted ++ [n]) u := by
            intro u v he hu
            rcases List.mem_append.mp hu with hu' | hu'
            · obtain ⟨hvmem, hlt⟩ := hInv2.topo u v he hu'
              refine ⟨List.mem_append.mpr (Or.inl hvmem), ?_⟩
              rw [idxO_append_left [n] hvmem, idxO_append_left [n] hu']
              exact hlt
            · have hun : u = n := List.mem_singleton.mp hu'
              rw [hun] at he ⊢
              have hvout : v ∈ g.OutgoingEdges n := mem_OutgoingEdges.mpr he
              have hvdisc : v ∈ st2.discovered := hkids v hvout
              have hvsort : v ∈ st2.sorted :=
                List.mem_reverse.mp (hInv2.disc_eq ▸ hvdisc)
              refine ⟨List.mem_append.mpr (Or.inl hvsort), ?_⟩
              rw [idxO_append_left [n] hvsort, idxO_append_self hnsort2]
              exact idxO_lt_length hvsort
          refine ⟨⟨⟨hdisc_eq', hnodup', hsub', htopo'⟩, ?_, ?_, ?_⟩, ?_⟩
          · show (st2.visiting.erase n) = st.visiting
            rw [hvis2', List.erase_cons_head]
          · intro x hx
            exact List.mem_cons_of_mem n (hmono2 x hx)
          · intro x hx
            rcases List.mem_cons.mp hx with rfl | hx'
            · exact Or.inr hv
            · rcases hndnv2 x hx' with h' | h'
              · exact Or.inl h'
              · exact Or.inr (fun hmem => h' (List.mem_cons_of_mem n hmem))
          · exact List.mem_cons_self n st2.discovered

theorem filter_length_mono {p q : Nat → Bool} (h : ∀ x, q x = true → p x = true) :
    ∀ l : List Nat, (l.filter q).length ≤ (l.filter p).length := by
  intro l
  induction l with
  | nil => simp
  | cons a t ih =>
    by_cases hq : q a = true
    · rw [List.filter_cons_of_pos hq, List.filter_cons_of_pos (h a hq)]
      simpa using ih
    · rw [List.filter_cons_of_neg (by simpa using hq)]
      by_cases hp : p a = true
      · rw [List.filter_cons_of_pos hp]
        exact ih.trans (Nat.le_succ _)
      · rw [List.filter_cons_of_neg (by simpa using hp)]
        exact ih

theorem filter_length_lt {p q : Nat → Bool} (himp : ∀ x, q x = true → p x = true)
    {n : Nat} (hpn : p n = true) (hqn : ¬ q n = true) :
    ∀ {l : List Nat}, n ∈ l → (l.filter q).length < (l.filter p).length := by
  intro l hn
  induction l with
  | nil => cases hn
  | cons a t ih =>
    rcases List.mem_cons.mp hn with rfl | hmem
    · rw [List.filter_cons_of_neg (by simpa using hqn), List.filter_cons_of_pos hpn,
        List.length_cons]
      exact Nat.lt_succ_of_le (filter_length_mono himp t)
    · by_cases hq : q a = true
      · rw [List.filter_cons_of_pos hq, List.filter_cons_of_pos (himp a hq),
          List.length_cons, List.length_cons]
        exact Nat.succ_lt_succ (ih hmem)
      · rw [List.filter_cons_of_neg (by simpa using hq)]
        by_cases hp : p a = true
        · rw [List.filter_cons_of_pos hp, List.length_cons]
          exact (ih hmem).trans (Nat.lt_succ_self _)
        · rw [List.filter_cons_of_neg (by simpa using hp)]
          exact ih hmem

theorem unvisitedCount_push {g : DirectedGraph} {st : DFSState} {n : Nat}
    (hn : n ∈ g.nodes) (hv : n ∉ st.visiting) :
    unvisitedCount g { st with visiting := n :: st.visiting } < unvisitedCount g st := by
  refine filter_length_lt (p := fun x => decide (x ∉ st.visiting))
    (q := fun x => decide (x ∉ n :: st.visiting)) ?_ (by simpa using hv) (by simp) hn
  intro x hx
  simp only [decide_eq_true_eq, List.mem_cons, not_or] at hx ⊢
  exact hx.2

theorem unvisitedCount_congr {g : DirectedGraph} {s s' : DFSState}
    (h : s.visiting = s'.visiting) : unvisitedCount g s = unvisitedCount g s' := by
  simp [unvisitedCount, h]

/-- With fuel exceeding the number of unmarked nodes, a visit never runs
out of fuel: it returns success or the cyclic-graph error.  (Joint
statement for `visit` and the node-list loop.) -/
theorem visit_total_aux {g : DirectedGraph} (hWF : WF g) :
    ∀ fuel : Nat,
      (∀ st n, st.visiting ⊆ g.nodes → n ∈ g.nodes → unvisitedCount g st < fuel →
        okOrCyc (visitFuel g fuel st n)) ∧
      (∀ l st, (∀ m ∈ l, m ∈ g.nodes) → st.visiting ⊆ g.nodes →
        unvisitedCount g st < fuel →
        okOrCyc (visitList (visitFuel g fuel) st l)) := by
  intro fuel
  induction fuel with
  | zero =>
    constructor
    · intro st n _ _ hcnt; omega
    · intro l st _ _ hcnt; omega
  | succ fuel ih =>
    have hvisit : ∀ st n, st.visiting ⊆ g.nodes → n ∈ g.nodes →
        unvisitedCount g st < fuel + 1 → okOrCyc (visitFuel g (fuel + 1) st n) := by
      intro st n hvsub hn hcnt
      rw [visitFuel]
      by_cases hd : n ∈ st.discovered
      · exact Or.inl ⟨st, by simp [if_pos hd]⟩
      · by_cases hv : n ∈ st.visiting
        · simp only [if_neg hd, if_pos hv]
          exact Or.inr rfl
        · simp only [if_neg hd, if_neg hv]
          set st1 : DFSState := { st with visiting := n :: st.visiting } with hst1
          have hsub1 : st1.visiting ⊆ g.nodes := by
            intro x hx
            rcases List.mem_cons.mp hx with rfl | hx'
            · exact hn
            · exact hvsub hx'
          have hcnt1 : unvisitedCount g st1 < fuel :=
            Nat.lt_of_lt_of_le (unvisitedCount_push hn hv) (Nat.lt_succ_iff.mp hcnt)
          have houts : ∀ m ∈ g.OutgoingEdges n, m ∈ g.nodes := by
            intro m hm
            exact (hWF.closed _ (EdgeExists_mem_edges.mp (mem_OutgoingEdges.mp hm))).2
          rcases ih.2 (g.OutgoingEdges n) st1 houts hsub1 hcnt1 with ⟨s2, hs2⟩ | herr
          · rw [hs2]
            exact Or.inl ⟨_, rfl⟩
          · rw [herr]
            exact Or.inr rfl
    refine ⟨hvisit, ?_⟩
    intro l
    induction l with
    | nil => intro st _ _ _; exact Or.inl ⟨st, rfl⟩
    | cons m rest ihl =>
      intro st hmem hvsub hcnt
      rcases hvisit st m hvsub (hmem m (List.mem_cons_self m rest)) hcnt with ⟨s2, hs2⟩ | herr
      · have hvis : s2.visiting = st.visiting := visitFuel_visiting hs2
        have := ihl s2 (fun x hx => hmem x (List.mem_cons_of_mem _ hx))
          (hvis ▸ hvsub) (unvisitedCount_congr hvis ▸ hcnt)
        rw [visitList, hs2]
        exact this
      · rw [visitList, herr]
        exact Or.inr rfl

/-- A chain of temporary marks is a path in the graph: every node on the
`visiting` stack reaches the most recently pushed one. -/
theorem chain_reach {g : DirectedGraph} :
    ∀ {t : List Nat} {h : Nat},
      List.Chain' (fun a b => g.EdgeExists b a = true) (h :: t) →
      ∀ m ∈ h :: t, Reach g m h := by
  intro t
  induction t with
  | nil =>
    intro h _ m hm
    rcases List.mem_singleton.mp hm with rfl
    exact Relation.ReflTransGen.refl
  | cons p t' ih =>
    intro h hchain m hm
    have hph : g.EdgeExists p h = true := (List.chain'_cons.mp hchain).1
    have hrest : List.Chain' (fun a b => g.EdgeExists b a = true) (p :: t') :=
      (List.chain'_cons.mp hchain).2
    rcases List.mem_cons.mp hm with rfl | hm'
    · exact Relation.ReflTransGen.refl
    · exact Relation.ReflTransGen.tail (ih hrest m hm') hph

/-- If a visit reports the cyclic-graph error then the graph really has a
cycle.  (Joint statement for `visit` and the node-list loop; the side
hypotheses say that `visiting` is a stack of successive edge targets and
that the node about to be visited extends it.) -/
theorem visit_cyc_aux {g : DirectedGraph} :
    ∀ fuel : Nat,
      (∀ st n, List.Chain' (fun a b => g.EdgeExists b a = true) st.visiting →
        (∀ h t, st.visiting = h :: t → g.EdgeExists h n = true) →
        visitFuel g fuel st n = .error .cyclicGraph → Cyclic g) ∧
      (∀ l st, List.Chain' (fun a b => g.EdgeExists b a = true) st.visiting →
        (∀ m ∈ l, ∀ h t, st.visiting = h :: t → g.EdgeExists h m = true) →
        visitList (visitFuel g fuel) st l = .error .cyclicGraph → Cyclic g) := by
  intro fuel
  induction fuel with
  | zero =>
    constructor
    · intro st n _ _ h; simp [visitFuel] at h
    · intro l st hchain hhead herr
      exfalso
      induction l generalizing st with
      | nil => simp [visitList] at herr
      | cons m rest ihl =>
        rw [visitList] at herr
        cases hm : visitFuel g 0 st m with
        | error e =>
          rw [hm] at herr
          simp [visitFuel] at hm
          cases herr
          cases hm
        | ok s2 => rw [hm] at herr; simp [visitFuel] at hm
  | succ fuel ih =>
    have hvisit : ∀ st n, List.Chain' (fun a b => g.EdgeExists b a = true) st.visiting →
        (∀ h t, st.visiting = h :: t → g.EdgeExists h n = true) →
        visitFuel g (fuel + 1) st n = .error .cyclicGraph → Cyclic g := by
      intro st n hchain hhead herr
      rw [visitFuel] at herr
      by_cases hd : n ∈ st.discovered
      · simp [if_pos hd] at herr
      · by_cases hv : n ∈ st.visiting
        · cases hvis : st.visiting with
          | nil => rw [hvis] at hv; cases hv
          | cons h t =>
            refine ⟨h, n, hhead h t hvis, ?_⟩
            exact chain_reach (hvis ▸ hchain) n (hvis ▸ hv)
        · simp only [if_neg hd, if_neg hv] at herr
          set st1 : DFSState := { st with visiting := n :: st.visiting } with hst1
          have hchain1 : List.Chain' (fun a b => g.EdgeExists b a = true) st1.visiting := by
            show List.Chain' _ (n :: st.visiting)
            cases hvis : st.visiting with
            | nil => simp
            | cons h t =>
              rw [List.chain'_cons]
              exact ⟨hhead h t hvis, hvis ▸ hchain⟩
          have hhead1 : ∀ m ∈ g.OutgoingEdges n, ∀ h t,
              st1.visiting = h :: t → g.EdgeExists h m = true := by
            intro m hm h t hht
            have : h = n := by
              have : n :: st.visiting = h :: t := hht
              exact (List.cons.injEq _ _ _ _ ▸ this).1.symm
            rw [this]
            exact mem_OutgoingEdges.mp hm
          cases hrun : visitList (visitFuel g fuel) st1 (g.OutgoingEdges n) with
          | error e =>
            rw [hrun] at herr
            cases herr
            exact ih.2 (g.OutgoingEdges n) st1 hchain1 hhead1 hrun
          | ok s2 => rw [hrun] at herr; cases herr
    refine ⟨hvisit, ?_⟩
    intro l
    induction l with
    | nil => intro st _ _ herr; simp [visitList] at herr
    | cons m rest ihl =>
      intro st hchain hhead herr
      rw [visitList] at herr
      cases hm : visitFuel g (fuel + 1) st m with
      | error e =>
        rw [hm] at herr
        cases herr
        exact hvisit st m hchain (fun h t hht => hhead m (List.mem_cons_self m rest) h t hht) hm
      | ok s2 =>
        rw [hm] at herr
        have hvis : s2.visiting = st.visiting := visitFuel_visiting hm
        exact ihl s2 (hvis ▸ hchain)
          (fun x hx h t hht => hhead x (List.mem_cons_of_mem _ hx) h t (hvis ▸ hht)) herr

/-- Soundness of `DFSSort`: whatever list it returns is a permutation of
the node set in which every edge's source appears strictly before its
target. -/
theorem DFSSort_ok_spec {g : DirectedGraph} (hWF : WF g) {l : List Nat}
    (h : g.DFSSort = .ok l) :
    l.Perm g.nodes ∧ l.Nodup ∧
      (∀ u v : Nat, g.EdgeExists u v = true →
        u ∈ l ∧ v ∈ l ∧ idxO l u < idxO l v) := by
  rw [DirectedGraph.DFSSort] at h
  cases hrun : visitList (visitFuel g (g.nodes.length + 1)) ⟨[], [], []⟩ g.Nodes with
  | error e => rw [hrun] at h; cases h
  | ok st =>
    rw [hrun] at h
    cases h
    have hInv0 : DFSInv g ⟨[], [], []⟩ :=
      ⟨rfl, List.nodup_nil, (by intro x hx; cases hx), (by intro u v _ hu; cases hu)⟩
    obtain ⟨⟨hInv, _, _, _⟩, hall⟩ :=
      visitList_post (fun {s m s'} a b c => visitFuel_post hWF a b c) hInv0
        (fun m hm => hm) hrun
    have hmem_iff : ∀ x : Nat, x ∈ st.sorted.reverse ↔ x ∈ st.discovered := by
      intro x
      rw [hInv.disc_eq]
    have hnd : st.sorted.reverse.Nodup := List.nodup_reverse.mpr hInv.nodup
    have hsub1 : st.sorted.reverse ⊆ g.nodes := by
      intro x hx
      exact hInv.subNodes x (List.mem_reverse.mp hx)
    have hsub2 : g.nodes ⊆ st.sorted.reverse := by
      intro x hx
      exact (hmem_iff x).mpr (hall x hx)
    have hperm : st.sorted.reverse.Perm g.nodes :=
      (hnd.subperm hsub1).antisymm (hWF.nodup.subperm hsub2)
    refine ⟨hperm, hnd, ?_⟩
    intro u v he
    have hu : u ∈ st.sorted := by
      have := (hWF.closed _ (EdgeExists_mem_edges.mp he)).1
      exact List.mem_reverse.mp (hsub2 this)
    obtain ⟨hv, hlt⟩ := hInv.topo u v he hu
    exact ⟨List.mem_reverse.mpr hu, List.mem_reverse.mpr hv,
      idxO_reverse_lt hInv.nodup hu hv hlt⟩

/-- `DFSSort` either succeeds or reports the cyclic-graph error (the fuel
supplied by the sorter is always sufficient). -/
theorem DFSSort_shape {g : DirectedGraph} (hWF : WF g) :
    (∃ l, g.DFSSort = .ok l) ∨ g.DFSSort = .error .cyclicGraph := by
  have hcnt : unvisitedCount g ⟨[], [], []⟩ < g.nodes.length + 1 := by
    have : unvisitedCount g ⟨[], [], []⟩ ≤ g.nodes.length :=
      List.length_filter_le _ _
    omega
  rcases (visit_total_aux hWF (g.nodes.length + 1)).2 g.Nodes ⟨[], [], []⟩
      (fun m hm => hm) (by intro x hx; cases hx) hcnt with ⟨st, hst⟩ | herr
  · exact Or.inl ⟨st.sorted.reverse, by rw [DirectedGraph.DFSSort, hst]⟩
  · exact Or.inr (by rw [DirectedGraph.DFSSort, herr])

/-- If `DFSSort` reports the cyclic-graph error, the graph has a cycle. -/
theorem DFSSort_err_has_cycle {g : DirectedGraph}
    (h : g.DFSSort = .error .cyclicGraph) : Cyclic g := by
  rw [DirectedGraph.DFSSort] at h
  cases hrun : visitList (visitFuel g (g.nodes.length + 1)) ⟨[], [], []⟩ g.Nodes with
  | error e =>
    rw [hrun] at h
    cases h
    exact (visit_cyc_aux (g.nodes.length + 1)).2 g.Nodes ⟨[], [], []⟩
      List.chain'_nil (by intro m _ h t ht; cases ht) hrun
  | ok st => rw [hrun] at h; cases h

/-- On an acyclic well-formed graph, `DFSSort` succeeds. -/
theorem DFSSort_acyclic_ok {g : DirectedGraph} (hWF : WF g) (hA : Acyclic g) :
    ∃ l, g.DFSSort = .ok l := by
  rcases DFSSort_shape hWF with h | h
  · exact h
  · obtain ⟨u, v, he, hr⟩ := DFSSort_err_has_cycle h
    exact absurd hr (hA u v he)

/-- A topological index function is monotone along reachability. -/
theorem Reach_idx_le {g : DirectedGraph} {l : List Nat}
    (htopo : ∀ u v : Nat, g.EdgeExists u v = true → idxO l u < idxO l v)
    {a b : Nat} (h : Reach g a b) : idxO l a ≤ idxO l b := by
  induction h with
  | refl => exact Nat.le_refl _
  | tail _ hstep ih => exact ih.trans (Nat.le_of_lt (htopo _ _ hstep))

/-- On a well-formed cyclic graph, `DFSSort` reports the cyclic-graph
error. -/
theorem DFSSort_cyclic_err {g : DirectedGraph} (hWF : WF g) (hC : Cyclic g) :
    g.DFSSort = .error .cyclicGraph := by
  rcases DFSSort_shape hWF with ⟨l, hl⟩ | h
  · exfalso
    obtain ⟨_, _, htopo⟩ := DFSSort_ok_spec hWF hl
    obtain ⟨u, v, he, hr⟩ := hC
    have h1 : idxO l u < idxO l v := (htopo u v he).2.2
    have h2 : idxO l v ≤ idxO l u :=
      Reach_idx_le (fun a b hab => (htopo a b hab).2.2) hr
    omega
  · exact h

/-! ### Transitive reduction -/

theorem RemoveTransitives_nodes (g : DirectedGraph) :
    (g.RemoveTransitives).nodes = g.nodes := by
  rw [DirectedGraph.RemoveTransitives]
  cases g.DFSSort <;> rfl

theorem RemoveTransitives_edges_sub {g : DirectedGraph} {u v : Nat}
    (h : (g.RemoveTransitives).EdgeExists u v = true) : g.EdgeExists u v = true := by
  rw [DirectedGraph.RemoveTransitives] at h
  cases hs : g.DFSSort with
  | error e => rwa [hs] at h
  | ok l =>
    rw [hs] at h
    rw [EdgeExists_mem_edges] at h ⊢
    exact (List.mem_filter.mp h).1

theorem WF_RemoveTransitives {g : DirectedGraph} (hWF : WF g) :
    WF g.RemoveTransitives := by
  constructor
  · rw [RemoveTransitives_nodes]
    exact hWF.nodup
  · intro p hp
    rw [RemoveTransitives_nodes]
    refine hWF.closed p ?_
    rw [DirectedGraph.RemoveTransitives] at hp
    cases hs : g.DFSSort with
    | error e => rwa [hs] at hp
    | ok l =>
      rw [hs] at hp
      exact (List.mem_filter.mp hp).1

theorem Acyclic_of_sub {g g' : DirectedGraph}
    (hsub : ∀ u v : Nat, g'.EdgeExists u v = true → g.EdgeExists u v = true)
    (hA : Acyclic g) : Acyclic g' := by
  intro u v he hr
  exact hA u v (hsub u v he) (Reach_mono hsub hr)

theorem Acyclic_RemoveTransitives {g : DirectedGraph} (hA : Acyclic g) :
    Acyclic g.RemoveTransitives :=
  Acyclic_of_sub (fun u v h => RemoveTransitives_edges_sub h) hA

theorem RemoveTransitives_eq_of_err {g : DirectedGraph} {e : GraffError}
    (h : g.DFSSort = .error e) : g.RemoveTransitives = g := by
  rw [DirectedGraph.RemoveTransitives, h]

theorem RemoveTransitives_edges_ok {g : DirectedGraph} {l : List Nat}
    (h : g.DFSSort = .ok l) :
    (g.RemoveTransitives).edges = g.edges.filter (fun e =>
      ! ((g.OutgoingEdges e.1).any
          (fun w => w != e.2 && reachableB g g.nodes.length w e.2))) := by
  rw [DirectedGraph.RemoveTransitives, h]

/-- An edge dropped by the reduction is witnessed by another outgoing
neighbour from which the target is reachable. -/
theorem RemoveTransitives_removed {g : DirectedGraph} {l : List Nat} {u v : Nat}
    (hok : g.DFSSort = .ok l) (he : g.EdgeExists u v = true)
    (hnot : ¬ (g.RemoveTransitives).EdgeExists u v = true) :
    ∃ w : Nat, g.EdgeExists u w = true ∧ w ≠ v ∧
      reachableB g g.nodes.length w v = true := by
  rw [EdgeExists_mem_edges, RemoveTransitives_edges_ok hok] at hnot
  have hmem : (u, v) ∈ g.edges := EdgeExists_mem_edges.mp he
  have hp : ¬ ((! ((g.OutgoingEdges u).any
      (fun w => w != v && reachableB g g.nodes.length w v))) = true) := by
    intro hcontra
    exact hnot (List.mem_filter.mpr ⟨hmem, hcontra⟩)
  have hp2 : ((g.OutgoingEdges u).any
      (fun w => w != v && reachableB g g.nodes.length w v)) = true := by
    revert hp
    cases ((g.OutgoingEdges u).any
      (fun w => w != v && reachableB g g.nodes.length w v)) <;> simp
  obtain ⟨w, hwmem, hw⟩ := List.any_eq_true.mp hp2
  rw [Bool.and_eq_true] at hw
  refine ⟨w, mem_OutgoingEdges.mp hwmem, ?_, hw.2⟩
  simpa using hw.1

/-- A kept edge is an edge of the reduced graph. -/
theorem RemoveTransitives_kept {g : DirectedGraph} {u v : Nat}
    (h : (g.RemoveTransitives).EdgeExists u v = true) :
    Reach g.RemoveTransitives u v :=
  Relation.ReflTransGen.single h

/-- Dropping transitive edges never disconnects an edge's endpoints: on a
graph whose DFS sort succeeds, every original edge is still a reduced-graph
path.  Proved by strong induction on the gap between the endpoints'
positions in the topological order. -/
theorem edge_reach_RemoveTransitives {g : DirectedGraph} {l : List Nat}
    (hWF : WF g) (hok : g.DFSSort = .ok l) :
    ∀ u v : Nat, g.EdgeExists u v = true → Reach g.RemoveTransitives u v := by
  have htopo : ∀ a b : Nat, g.EdgeExists a b = true → idxO l a < idxO l b :=
    fun a b h => ((DFSSort_ok_spec hWF hok).2.2 a b h).2.2
  have main : ∀ k : Nat, ∀ u v : Nat, g.EdgeExists u v = true →
      idxO l v - idxO l u = k → Reach g.RemoveTransitives u v := by
    intro k
    induction k using Nat.strong_induction_on with
    | _ k ihk =>
      intro u v he hgap
      by_cases hkeep : (g.RemoveTransitives).EdgeExists u v = true
      · exact RemoveTransitives_kept hkeep
      · obtain ⟨w, hew, hwv, hreach⟩ := RemoveTransitives_removed hok he hkeep
        have hRwv : Reach g w v := reachableB_sound hreach
        have hidx_uv : idxO l u < idxO l v := htopo u v he
        have hidx_uw : idxO l u < idxO l w := htopo u w hew
        have hidx_wv : idxO l w < idxO l v := by
          rcases Relation.ReflTransGen.cases_head hRwv with heq | ⟨c, hwc, hcv⟩
          · exact absurd heq hwv
          · have h1 : idxO l w < idxO l c := htopo w c hwc
            have h2 : idxO l c ≤ idxO l v := Reach_idx_le htopo hcv
            omega
        have huw : Reach g.RemoveTransitives u w :=
          ihk (idxO l w - idxO l u) (by omega) u w hew rfl
        have hwvR : ∀ x : Nat, Reach g x v → idxO l u < idxO l x →
            Reach g.RemoveTransitives x v := by
          intro x hx
          induction hx using Relation.ReflTransGen.head_induction_on with
          | refl => intro _; exact Relation.ReflTransGen.refl
          | head hstep htail ih =>
            rename_i a c
            intro hua
            have hac : idxO l a < idxO l c := htopo a c hstep
            have hcv : idxO l c ≤ idxO l v := Reach_idx_le htopo htail
            have h1 : Reach g.RemoveTransitives a c :=
              ihk (idxO l c - idxO l a) (by omega) a c hstep rfl
            exact h1.trans (ih (by omega))
        exact huw.trans (hwvR w hRwv hidx_uw)
  intro u v he
  exact main _ u v he rfl

/-- Reachability preservation for `RemoveTransitives` (both directions).
On a cyclic graph the reduction surfaces the DFS error and leaves the
graph unchanged; on a DAG every removed edge is recovered by a retained
path. -/
theorem RemoveTransitives_Reach_iff {g : DirectedGraph} (hWF : WF g) :
    ∀ a b : Nat, Reach g a b ↔ Reach g.RemoveTransitives a b := by
  intro a b
  cases hs : g.DFSSort with
  | error e =>
    rw [RemoveTransitives_eq_of_err hs]
  | ok l =>
    constructor
    · intro h
      induction h with
      | refl => exact Relation.ReflTransGen.refl
      | tail _ hstep ih =>
        exact ih.trans (edge_reach_RemoveTransitives hWF hs _ _ hstep)
    · intro h
      exact Reach_mono (fun u v hh => RemoveTransitives_edges_sub hh) h

/-- Idempotence of the reduction on well-formed DAGs: the second pass
keeps every edge the first pass kept. -/
theorem RemoveTransitives_idem {g : DirectedGraph} (hWF : WF g) (hA : Acyclic g) :
    (g.RemoveTransitives).RemoveTransitives = g.RemoveTransitives := by
  obtain ⟨l', hok'⟩ :=
    DFSSort_acyclic_ok (WF_RemoveTransitives hWF) (Acyclic_RemoveTransitives hA)
  have hfilter : ((g.RemoveTransitives).edges.filter (fun e =>
      ! (((g.RemoveTransitives).OutgoingEdges e.1).any
          (fun w => w != e.2 &&
            reachableB g.RemoveTransitives (g.RemoveTransitives).nodes.length w e.2))))
      = (g.RemoveTransitives).edges := by
    refine List.filter_eq_self.mpr ?_
    intro e hmem
    rw [Bool.not_eq_eq_eq_not, Bool.not_true]
    by_contra hany
    rw [Bool.not_eq_false] at hany
    obtain ⟨w, hwmem, hw⟩ := List.any_eq_true.mp hany
    rw [Bool.and_eq_true] at hw
    have hwne : w ≠ e.2 := by simpa using hw.1
    -- translate the second-pass witness into a first-pass witness
    have hG'sub : ∀ u v : Nat, (g.RemoveTransitives).EdgeExists u v = true →
        g.EdgeExists u v = true := fun u v h => RemoveTransitives_edges_sub h
    have hwout : g.EdgeExists e.1 w = true :=
      hG'sub _ _ (mem_OutgoingEdges.mp hwmem)
    have hreaches : reachableB g g.nodes.length w e.2 = true := by
      have : reachableB g (g.RemoveTransitives).nodes.length w e.2 = true :=
        reachableB_mono hG'sub hw.2
      rwa [RemoveTransitives_nodes] at this
    -- but then the first pass would have dropped `e`
    have hkeptG : e ∈ g.edges.filter (fun e =>
        ! ((g.OutgoingEdges e.1).any
            (fun w => w != e.2 && reachableB g g.nodes.length w e.2))) := by
      obtain ⟨lg, hokg⟩ := DFSSort_acyclic_ok hWF hA
      rwa [RemoveTransitives_edges_ok hokg] at hmem
    have hkeep := (List.mem_filter.mp hkeptG).2
    rw [Bool.not_eq_eq_eq_not, Bool.not_true] at hkeep
    have : (g.OutgoingEdges e.1).any
        (fun w => w != e.2 && reachableB g g.nodes.length w e.2) = true :=
      List.any_eq_true.mpr ⟨w, mem_OutgoingEdges.mpr hwout, by
        rw [Bool.and_eq_true]
        exact ⟨by simpa using hwne, hreaches⟩⟩
    rw [this] at hkeep
    cases hkeep
  calc (g.RemoveTransitives).RemoveTransitives
      = { g.RemoveTransitives with edges := (g.RemoveTransitives).edges } := by
        rw [DirectedGraph.RemoveTransitives, hok', hfilter]
    _ = g.RemoveTransitives := rfl

/-! ### Layer-list helpers -/

theorem getD_set_self : ∀ {l : List (List Nat)} {i : Nat}, i < l.length →
    ∀ v : List Nat, (l.set i v).getD i [] = v := by
  intro l
  induction l with
  | nil => intro i h v; simp at h
  | cons a t ih =>
    intro i h v
    cases i with
    | zero => simp
    | succ j =>
      simp only [List.set_cons_succ, List.getD_cons_succ]
      exact ih (by simpa using h) v

theorem getD_set_other : ∀ {l : List (List Nat)} {i j : Nat}, j ≠ i →
    ∀ v : List Nat, (l.set i v).getD j [] = l.getD j [] := by
  intro l
  induction l with
  | nil => intro i j _ v; simp
  | cons a t ih =>
    intro i j hne v
    cases i with
    | zero =>
      cases j with
      | zero => exact absurd rfl hne
      | succ j' => simp
    | succ i' =>
      cases j with
      | zero => simp
      | succ j' =>
        simp only [List.set_cons_succ, List.getD_cons_succ]
        exact ih (fun h => hne (by rw [h])) v

theorem getD_append_last : ∀ (l : List (List Nat)) (v : List Nat),
    (l ++ [v]).getD l.length [] = v := by
  intro l
  induction l with
  | nil => intro v; rfl
  | cons a t ih => intro v; simpa using ih v

theorem getD_append_lt : ∀ {l : List (List Nat)} {j : Nat}, j < l.length →
    ∀ v : List Nat, (l ++ [v]).getD j [] = l.getD j [] := by
  intro l
  induction l with
  | nil => intro j h v; simp at h
  | cons a t ih =>
    intro j h v
    cases j with
    | zero => simp
    | succ j' =>
      simp only [List.cons_append, List.getD_cons_succ]
      exact ih (by simpa using h) v

theorem getD_mem : ∀ {l : List (List Nat)} {i : Nat}, i < l.length → l.getD i [] ∈ l := by
  intro l
  induction l with
  | nil => intro i h; simp at h
  | cons a t ih =>
    intro i h
    cases i with
    | zero => simp
    | succ j => exact List.mem_cons_of_mem _ (ih (by simpa using h))

theorem getD_drop : ∀ (k : Nat) (l : List (List Nat)) (j : Nat),
    (l.drop k).getD j [] = l.getD (k + j) [] := by
  intro k
  induction k with
  | zero => intro l j; simp
  | succ k ih =>
    intro l j
    cases l with
    | nil => simp
    | cons a t =>
      rw [List.drop_succ_cons, ih t j]
      have hidx : k + 1 + j = (k + j) + 1 := by omega
      rw [hidx, List.getD_cons_succ]

/-! ### `depLevel`, `findSlot`, `cgAssign` -/

/-- If every listed predecessor has a recorded level, the
`dependantLevel` loop succeeds with the maximum of the accumulator and
those levels. -/
theorem depLevel_ok {levels : List (Nat × Nat)} :
    ∀ {ds : List Nat}, (∀ d ∈ ds, (lvlGet levels d).isSome) → ∀ acc : Int,
      ∃ dl : Int, depLevel levels ds acc = .ok dl ∧ acc ≤ dl ∧
        (∀ d ∈ ds, ∀ ld : Nat, lvlGet levels d = some ld → (ld : Int) ≤ dl) ∧
        (dl = acc ∨ ∃ d ∈ ds, ∃ ld : Nat, lvlGet levels d = some ld ∧ dl = (ld : Int)) := by
  intro ds
  induction ds with
  | nil =>
    intro _ acc
    exact ⟨acc, rfl, le_refl _, (by intro d hd; cases hd), Or.inl rfl⟩
  | cons d rest ih =>
    intro hall acc
    have hd := hall d (List.mem_cons_self d rest)
    cases hld : lvlGet levels d with
    | none => rw [hld] at hd; cases hd
    | some ld =>
      set acc' : Int := if (ld : Int) > acc then (ld : Int) else acc with hacc'
      obtain ⟨dl, hrun, hle, hmax, hwit⟩ :=
        ih (fun x hx => hall x (List.mem_cons_of_mem _ hx)) acc'
      have hacc'_ge_acc : acc ≤ acc' := by
        rw [hacc']; split <;> omega
      have hacc'_ge_ld : (ld : Int) ≤ acc' := by
        rw [hacc']; split <;> omega
      refine ⟨dl, ?_, hacc'_ge_acc.trans hle, ?_, ?_⟩
      · rw [depLevel, hld]
        exact hrun
      · intro x hx lx hlx
        rcases List.mem_cons.mp hx with rfl | hx'
        · rw [hld] at hlx
          cases hlx
          exact hacc'_ge_ld.trans hle
        · exact hmax x hx' lx hlx
      · rcases hwit with hdl | ⟨x, hx, lx, hlx, hdl⟩
        · subst hdl
          rw [hacc']
          split
          · exact Or.inr ⟨d, List.mem_cons_self d rest, ld, hld, rfl⟩
          · exact Or.inl rfl
        · exact Or.inr ⟨x, List.mem_cons_of_mem _ hx, lx, hlx, hdl⟩

theorem firstAvailAux_spec {width : Int} :
    ∀ {ls : List (List Nat)} {base i : Nat},
      firstAvailAux width ls base = some i →
      base ≤ i ∧ i - base < ls.length ∧ ((ls.getD (i - base) []).length : Int) < width := by
  intro ls
  induction ls with
  | nil => intro base i h; exact Option.noConfusion h
  | cons l rest ih =>
    intro base i h
    rw [firstAvailAux] at h
    by_cases hl : (l.length : Int) < width
    · rw [if_pos hl] at h
      cases h
      simpa using hl
    · rw [if_neg hl] at h
      obtain ⟨hb, hlen, hgot⟩ := ih h
      have hbi : base < i := by omega
      refine ⟨Nat.le_of_lt hbi, by simp; omega, ?_⟩
      have : i - base = (i - (base + 1)) + 1 := by omega
      rw [this, List.getD_cons_succ]
      exact hgot

theorem findSlot_spec {width : Int} {layers : List (List Nat)} {dl : Int} {i : Nat}
    (hdl : -1 ≤ dl) (h : findSlot width layers dl = some i) :
    dl < (i : Int) ∧ i < layers.length ∧ ((layers.getD i []).length : Int) < width := by
  rw [findSlot] at h
  by_cases hguard : dl < (layers.length : Int) - 1
  · rw [if_pos hguard] at h
    obtain ⟨hb, hlen, hgot⟩ := firstAvailAux_spec h
    have hk : ((dl + 1).toNat : Int) = dl + 1 := Int.toNat_of_nonneg (by omega)
    have hkle : (dl + 1).toNat ≤ layers.length := by omega
    have hdrop : (layers.drop (dl + 1).toNat).length = layers.length - (dl + 1).toNat :=
      List.length_drop _ _
    have hilt : i < layers.length := by omega
    have hgot' : ((layers.getD i []).length : Int) < width := by
      rw [getD_drop] at hgot
      have : (dl + 1).toNat + (i - (dl + 1).toNat) = i := by omega
      rwa [this] at hgot
    exact ⟨by omega, hilt, hgot'⟩
  · rw [if_neg hguard] at h
    cases h

/-- Behaviour of one placement: the assigned level is strictly above the
dependant level, lies inside the updated layer list, receives the node,
and placement preserves existing layer members and the layer count. -/
theorem cgAssign_spec {width : Int} {layers : List (List Nat)} {node : Nat} {dl : Int}
    (hdl : -1 ≤ dl) (hdom : dl < (layers.length : Int)) :
    dl < ((cgAssign width layers node dl).2 : Int) ∧
    (cgAssign width layers node dl).2 < (cgAssign width layers node dl).1.length ∧
    node ∈ (cgAssign width layers node dl).1.getD (cgAssign width layers node dl).2 [] ∧
    (∀ j x, x ∈ layers.getD j [] → x ∈ (cgAssign width layers node dl).1.getD j []) ∧
    layers.length ≤ (cgAssign width layers node dl).1.length := by
  rw [cgAssign]
  cases hs : findSlot width layers dl with
  | some i =>
    obtain ⟨hlt, hilen, _⟩ := findSlot_spec hdl hs
    simp only
    refine ⟨hlt, ?_, ?_, ?_, ?_⟩
    · simpa [List.length_set] using hilen
    · rw [getD_set_self (by first | exact hilen | simpa [List.length_set] using hilen)]
      exact List.mem_append.mpr (Or.inr (List.mem_singleton.mpr rfl))
    · intro j x hx
      by_cases hji : j = i
      · subst hji
        rw [getD_set_self hilen]
        exact List.mem_append.mpr (Or.inl hx)
      · rw [getD_set_other hji]
        exact hx
    · simp [List.length_set]
  | none =>
    simp only
    refine ⟨by omega, ?_, ?_, ?_, ?_⟩
    · simp
    · rw [getD_append_last]
      exact List.mem_singleton.mpr rfl
    · intro j x hx
      by_cases hj : j < layers.length
      · rw [getD_append_lt hj]
        exact hx
      · have : layers.getD j [] = [] := by
          have : layers.length ≤ j := by omega
          simp [List.getD_eq_getElem?_getD, List.getElem?_eq_none this]
        rw [this] at hx
        cases hx
    · simp

/-! ### The layering loop -/

theorem lvlGet_cons_self {levels : List (Nat × Nat)} {k v : Nat} :
    lvlGet ((k, v) :: levels) k = some v := by
  simp [lvlGet]

theorem lvlGet_cons_ne {levels : List (Nat × Nat)} {k v x : Nat} (h : k ≠ x) :
    lvlGet ((k, v) :: levels) x = lvlGet levels x := by
  simp [lvlGet, h]

theorem lvlGet_cons_isSome {levels : List (Nat × Nat)} {k v x : Nat}
    (h : (lvlGet levels x).isSome = true) :
    (lvlGet ((k, v) :: levels) x).isSome = true := by
  by_cases hk : k = x
  · subst hk
    rw [lvlGet_cons_self]
    rfl
  · rwa [lvlGet_cons_ne hk]

theorem depLevel_ge_acc {levels : List (Nat × Nat)} :
    ∀ {ds : List Nat} {acc dl : Int}, depLevel levels ds acc = .ok dl → acc ≤ dl := by
  intro ds
  induction ds with
  | nil =>
    intro acc dl h
    rw [depLevel] at h
    cases h
    exact le_refl _
  | cons d rest ih =>
    intro acc dl h
    rw [depLevel] at h
    cases hld : lvlGet levels d with
    | none => rw [hld] at h; cases h
    | some l =>
      rw [hld] at h
      have := ih h
      split at this <;> omega

/-- A successful layering never revises an existing level entry. -/
theorem cgLoop_mono {w : Int} {red : DirectedGraph} :
    ∀ {todo : List Nat} {layers : List (List Nat)} {levels : List (Nat × Nat)}
      {L : List (List Nat)} {M : List (Nat × Nat)},
      cgLoop w red todo layers levels = .ok (L, M) →
      ∀ x lx : Nat, lvlGet levels x = some lx → lvlGet M x = some lx := by
  intro todo
  induction todo with
  | nil =>
    intro layers levels L M h x lx hx
    rw [cgLoop] at h
    cases h
    exact hx
  | cons node rest ih =>
    intro layers levels L M h x lx hx
    rw [cgLoop] at h
    cases hn : lvlGet levels node with
    | some l0 =>
      rw [hn] at h
      exact ih h x lx hx
    | none =>
      rw [hn] at h
      cases hdep : depLevel levels (red.IncomingEdges node) (-1) with
      | error e => rw [hdep] at h; cases h
      | ok dl =>
        rw [hdep] at h
        simp only at h
        have hne : node ≠ x := by
          intro hcontra
          rw [hcontra, hx] at hn
          cases hn
        exact ih h x lx (by rwa [lvlGet_cons_ne hne])

theorem PredOK_tail_skip {red : DirectedGraph} {node : Nat} {rest : List Nat}
    {levels : List (Nat × Nat)} (hnodup : (node :: rest).Nodup)
    (hsome : (lvlGet levels node).isSome = true)
    (h : PredOK red (node :: rest) levels) : PredOK red rest levels := by
  intro n d hn he
  rcases h n d (List.mem_cons_of_mem _ hn) he with hs | ⟨hd, hidx⟩
  · exact Or.inl hs
  · rcases List.mem_cons.mp hd with rfl | hd'
    · exact Or.inl hsome
    · refine Or.inr ⟨hd', ?_⟩
      have hdn : node ≠ d := fun hc => (List.nodup_cons.mp hnodup).1 (hc ▸ hd')
      have hnn : node ≠ n := fun hc => (List.nodup_cons.mp hnodup).1 (hc ▸ hn)
      rw [idxO_cons_ne hdn, idxO_cons_ne hnn] at hidx
      omega

theorem PredOK_tail_assign {red : DirectedGraph} {node : Nat} {rest : List Nat}
    {levels : List (Nat × Nat)} {L : Nat} (hnodup : (node :: rest).Nodup)
    (h : PredOK red (node :: rest) levels) :
    PredOK red rest ((node, L) :: levels) := by
  intro n d hn he
  rcases h n d (List.mem_cons_of_mem _ hn) he with hs | ⟨hd, hidx⟩
  · exact Or.inl (lvlGet_cons_isSome hs)
  · rcases List.mem_cons.mp hd with rfl | hd'
    · exact Or.inl (by rw [lvlGet_cons_self]; rfl)
    · refine Or.inr ⟨hd', ?_⟩
      have hdn : node ≠ d := fun hc => (List.nodup_cons.mp hnodup).1 (hc ▸ hd')
      have hnn : node ≠ n := fun hc => (List.nodup_cons.mp hnodup).1 (hc ▸ hn)
      rw [idxO_cons_ne hdn, idxO_cons_ne hnn] at hidx
      omega

theorem PredOK_head_deps {red : DirectedGraph} {node : Nat} {rest : List Nat}
    {levels : List (Nat × Nat)} (h : PredOK red (node :: rest) levels) :
    ∀ d ∈ red.IncomingEdges node, (lvlGet levels d).isSome = true := by
  intro d hd
  rcases h node d (List.mem_cons_self node rest) (mem_IncomingEdges.mp hd) with hs | ⟨_, hidx⟩
  · exact hs
  · rw [idxO_head] at hidx
    omega

/-- With the topological precondition the layering loop always succeeds
(in particular, the dependency-order error branch is unreachable). -/
theorem cgLoop_ok {w : Int} {red : DirectedGraph} :
    ∀ {todo : List Nat} {layers : List (List Nat)} {levels : List (Nat × Nat)},
      todo.Nodup → PredOK red todo levels →
      ∃ p, cgLoop w red todo layers levels = .ok p := by
  intro todo
  induction todo with
  | nil => intro layers levels _ _; exact ⟨(layers, levels), rfl⟩
  | cons node rest ih =>
    intro layers levels hnodup hpred
    rw [cgLoop]
    cases hn : lvlGet levels node with
    | some l0 =>
      exact ih (List.nodup_cons.mp hnodup).2
        (PredOK_tail_skip hnodup (by rw [hn]; rfl) hpred)
    | none =>
      obtain ⟨dl, hrun, _, _, _⟩ :=
        depLevel_ok (PredOK_head_deps hpred) (-1)
      rw [hrun]
      simp only
      exact ih (List.nodup_cons.mp hnodup).2 (PredOK_tail_assign hnodup hpred)

/-- Main correctness of the layering loop: levels index real layers that
contain their nodes, every pending node ends up with a level, and a node
assigned during the run sits strictly above each of its reduced-graph
predecessors. -/
theorem cgLoop_master {w : Int} {red : DirectedGraph} :
    ∀ {todo : List Nat} {layers : List (List Nat)} {levels : List (Nat × Nat)},
      todo.Nodup → PredOK red todo levels →
      (∀ x lx : Nat, lvlGet levels x = some lx → lx < layers.length) →
      (∀ x lx : Nat, lvlGet levels x = some lx → x ∈ layers.getD lx []) →
      ∀ {L : List (List Nat)} {M : List (Nat × Nat)},
        cgLoop w red todo layers levels = .ok (L, M) →
        (∀ x lx : Nat, lvlGet M x = some lx → lx < L.length ∧ x ∈ L.getD lx []) ∧
        (∀ n ∈ todo, (lvlGet M n).isSome = true) ∧
        (∀ u v lv : Nat, red.EdgeExists u v = true → v ∈ todo →
          lvlGet levels v = none → lvlGet M v = some lv →
          ∃ lu : Nat, lvlGet M u = some lu ∧ lu < lv) := by
  intro todo
  induction todo with
  | nil =>
    intro layers levels _ _ hdom hmem L M h
    rw [cgLoop] at h
    cases h
    exact ⟨fun x lx hx => ⟨hdom x lx hx, hmem x lx hx⟩,
      (by intro n hn; cases hn), (by intro u v lv _ hv; cases hv)⟩
  | cons node rest ih =>
    intro layers levels hnodup hpred hdom hmem L M h
    rw [cgLoop] at h
    cases hn : lvlGet levels node with
    | some l0 =>
      rw [hn] at h
      obtain ⟨h1, h2, h3⟩ := ih (List.nodup_cons.mp hnodup).2
        (PredOK_tail_skip hnodup (by rw [hn]; rfl) hpred) hdom hmem h
      refine ⟨h1, ?_, ?_⟩
      · intro n hnn
        rcases List.mem_cons.mp hnn with rfl | hnn'
        · rw [cgLoop_mono h n l0 hn]
          rfl
        · exact h2 n hnn'
      · intro u v lv he hv hvnone hvlv
        rcases List.mem_cons.mp hv with rfl | hv'
        · rw [hvnone] at hn
          cases hn
        · exact h3 u v lv he hv' hvnone hvlv
    | none =>
      rw [hn] at h
      obtain ⟨dl, hrun, hge, hmax, hwit⟩ :=
        depLevel_ok (PredOK_head_deps hpred) (-1)
      rw [hrun] at h
      simp only at h
      have hdl_lb : -1 ≤ dl := hge
      have hdl_dom : dl < (layers.length : Int) := by
        rcases hwit with rfl | ⟨d, _, ld, hld, rfl⟩
        · have : (0 : Int) ≤ (layers.length : Int) := Int.ofNat_nonneg _
          omega
        · exact_mod_cast hdom d ld hld
      obtain ⟨ha, hb, hc, hd, helen⟩ := @cgAssign_spec w layers node dl hdl_lb hdl_dom
      set p := cgAssign w layers node dl with hp
      have hdom1 : ∀ x lx : Nat, lvlGet ((node, p.2) :: levels) x = some lx →
          lx < p.1.length := by
        intro x lx hx
        by_cases hxe : node = x
        · subst hxe
          rw [lvlGet_cons_self] at hx
          cases hx
          exact hb
        · rw [lvlGet_cons_ne hxe] at hx
          exact Nat.lt_of_lt_of_le (hdom x lx hx) helen
      have hmem1 : ∀ x lx : Nat, lvlGet ((node, p.2) :: levels) x = some lx →
          x ∈ p.1.getD lx [] := by
        intro x lx hx
        by_cases hxe : node = x
        · subst hxe
          rw [lvlGet_cons_self] at hx
          cases hx
          exact hc
        · rw [lvlGet_cons_ne hxe] at hx
          exact hd lx x (hmem x lx hx)
      obtain ⟨h1, h2, h3⟩ := ih (List.nodup_cons.mp hnodup).2
        (PredOK_tail_assign hnodup hpred) hdom1 hmem1 h
      have hnodeM : lvlGet M node = some p.2 :=
        cgLoop_mono h node p.2 lvlGet_cons_self
      refine ⟨h1, ?_, ?_⟩
      · intro n hnn
        rcases List.mem_cons.mp hnn with rfl | hnn'
        · rw [hnodeM]; rfl
        · exact h2 n hnn'
      · intro u v lv he hv hvnone hvlv
        rcases List.mem_cons.mp hv with rfl | hv'
        · -- v = node: it was assigned level p.2 in this step
          have hveq : lv = p.2 := by
            rw [hnodeM] at hvlv
            cases hvlv
            rfl
          have hu_in : u ∈ red.IncomingEdges v := mem_IncomingEdges.mpr he
          have hu_some : (lvlGet levels u).isSome = true :=
            PredOK_head_deps hpred u hu_in
          obtain ⟨lu, hlu⟩ := Option.isSome_iff_exists.mp hu_some
          have hlu_le : (lu : Int) ≤ dl := hmax u hu_in lu hlu
          have hune : v ≠ u := by
            intro hc
            rw [hc] at hn
            rw [hn] at hlu
            cases hlu
          refine ⟨lu, ?_, ?_⟩
          · exact cgLoop_mono h u lu (by rwa [lvlGet_cons_ne hune])
          · have : (lu : Int) < (p.2 : Int) := by omega
            rw [hveq]
            exact_mod_cast this
        · have hvne : node ≠ v := by
            intro hc
            exact (List.nodup_cons.mp hnodup).1 (hc ▸ hv')
          exact h3 u v lv he hv' (by rwa [lvlGet_cons_ne hvne]) hvlv

/-- Layer widths are preserved by the loop (for positive width). -/
theorem cgAssign_width {w : Int} {layers : List (List Nat)} {node : Nat} {dl : Int}
    (hw : 1 ≤ w) (hdl : -1 ≤ dl)
    (hlayers : ∀ lay ∈ layers, (lay.length : Int) ≤ w) :
    ∀ lay ∈ (cgAssign w layers node dl).1, (lay.length : Int) ≤ w := by
  rw [cgAssign]
  cases hs : findSlot w layers dl with
  | some i =>
    obtain ⟨_, hilen, hroom⟩ := findSlot_spec hdl hs
    intro lay hmem
    simp only at hmem
    rcases List.mem_or_eq_of_mem_set hmem with hold | hnew
    · exact hlayers lay hold
    · rw [hnew]
      have : ((layers.getD i [] ++ [node]).length : Int)
          = ((layers.getD i []).length : Int) + 1 := by
        simp
      omega
  | none =>
    intro lay hmem
    simp only at hmem
    rcases List.mem_append.mp hmem with hold | hnew
    · exact hlayers lay hold
    · rcases List.mem_singleton.mp hnew with rfl
      simpa using hw

theorem cgLoop_width {w : Int} {red : DirectedGraph} (hw : 1 ≤ w) :
    ∀ {todo : List Nat} {layers : List (List Nat)} {levels : List (Nat × Nat)}
      {L : List (List Nat)} {M : List (Nat × Nat)},
      (∀ lay ∈ layers, (lay.length : Int) ≤ w) →
      cgLoop w red todo layers levels = .ok (L, M) →
      ∀ lay ∈ L, (lay.length : Int) ≤ w := by
  intro todo
  induction todo with
  | nil =>
    intro layers levels L M hlayers h
    rw [cgLoop] at h
    cases h
    exact hlayers
  | cons node rest ih =>
    intro layers levels L M hlayers h
    rw [cgLoop] at h
    cases hn : lvlGet levels node with
    | some l0 =>
      rw [hn] at h
      exact ih hlayers h
    | none =>
      rw [hn] at h
      cases hdep : depLevel levels (red.IncomingEdges node) (-1) with
      | error e => rw [hdep] at h; cases h
      | ok dl =>
        rw [hdep] at h
        simp only at h
        exact ih (cgAssign_width hw (depLevel_ge_acc hdep) hlayers) h

/-- Forgetting the `maxLevel` component, `cgLoopE` is `cgLoop`. -/
theorem cgLoopE_proj {w : Int} {red : DirectedGraph} :
    ∀ (todo : List Nat) (layers : List (List Nat)) (levels : List (Nat × Nat))
      (ml : Int),
      cgLoop w red todo layers levels
        = (cgLoopE w red todo layers levels ml).map (fun p => (p.1, p.2.1)) := by
  intro todo
  induction todo with
  | nil => intro layers levels ml; rfl
  | cons node rest ih =>
    intro layers levels ml
    rw [cgLoop, cgLoopE]
    cases hn : lvlGet levels node with
    | some l0 => exact ih _ _ _
    | none =>
      cases hdep : depLevel levels (red.IncomingEdges node) (-1) with
      | error e => rfl
      | ok dl =>
        simp only
        exact ih _ _ _

/-- On a duplicate-free pending list none of whose nodes has a recorded
level, the skip branch never fires, so the stateful loop agrees with the
original (stateless) loop. -/
theorem cgLoop_eq_origLoop {w : Int} {red : DirectedGraph} :
    ∀ {todo : List Nat} {layers : List (List Nat)} {levels : List (Nat × Nat)},
      todo.Nodup → (∀ n ∈ todo, lvlGet levels n = none) →
      cgLoop w red todo layers levels = origLoop w red todo layers levels := by
  intro todo
  induction todo with
  | nil => intro layers levels _ _; rfl
  | cons node rest ih =>
    intro layers levels hnodup hnone
    rw [cgLoop, origLoop, hnone node (List.mem_cons_self node rest)]
    cases hdep : depLevel levels (red.IncomingEdges node) (-1) with
    | error e => rfl
    | ok dl =>
      simp only
      refine ih (List.nodup_cons.mp hnodup).2 ?_
      intro n hn
      have hne : node ≠ n := fun hc => (List.nodup_cons.mp hnodup).1 (hc ▸ hn)
      rw [lvlGet_cons_ne hne]
      exact hnone n (List.mem_cons_of_mem _ hn)

/-! ### Bridging lemmas for the claim theorems -/

/-- A graph whose every edge increases the node identifier is acyclic
(used to discharge `Acyclic` at concrete witness graphs). -/
theorem Acyclic_of_increasing {g : DirectedGraph}
    (h : ∀ p ∈ g.edges, p.1 < p.2) : Acyclic g := by
  have hle : ∀ a b : Nat, Reach g a b → a ≤ b := by
    intro a b hr
    induction hr with
    | refl => exact Nat.le_refl _
    | tail _ hstep ih =>
      have := h _ (EdgeExists_mem_edges.mp hstep)
      omega
  intro u v he hr
  have h1 : u < v := h _ (EdgeExists_mem_edges.mp he)
  have h2 : v ≤ u := hle v u hr
  omega

/-- A topological order of the reduced graph satisfies the layering-loop
precondition for any level map. -/
theorem PredOK_of_topo {red : DirectedGraph} {nodes : List Nat} (hWFr : WF red)
    (hok : red.DFSSort = .ok nodes) (levels : List (Nat × Nat)) :
    PredOK red nodes levels := by
  intro n d hn he
  obtain ⟨hd, _, hidx⟩ := (DFSSort_ok_spec hWFr hok).2.2 d n he
  exact Or.inr ⟨hd, hidx⟩

theorem cgLoopE_ok_to_cgLoop {w : Int} {red : DirectedGraph} {todo : List Nat}
    {layers : List (List Nat)} {levels : List (Nat × Nat)} {ml : Int}
    {q : List (List Nat) × List (Nat × Nat) × Int}
    (h : cgLoopE w red todo layers levels ml = .ok q) :
    cgLoop w red todo layers levels = .ok (q.1, q.2.1) := by
  rw [cgLoopE_proj todo layers levels ml, h]
  rfl

theorem cgLoopE_err_to_cgLoop {w : Int} {red : DirectedGraph} {todo : List Nat}
    {layers : List (List Nat)} {levels : List (Nat × Nat)} {ml : Int}
    {e : GraffError} (h : cgLoopE w red todo layers levels ml = .error e) :
    cgLoop w red todo layers levels = .error e := by
  rw [cgLoopE_proj todo layers levels ml, h]
  rfl

theorem EdgeExists_AddEdge (g : DirectedGraph) (u v : Nat) :
    (g.AddEdge u v).EdgeExists u v = true := by
  rw [DirectedGraph.AddEdge]
  by_cases h : (u, v) ∈ ((g.AddNode u).AddNode v).edges
  · rw [if_pos h]
    simpa [DirectedGraph.EdgeExists] using h
  · rw [if_neg h]
    simp [DirectedGraph.EdgeExists]

/-- `EventSort` never revises an existing level entry, on any path. -/
theorem EventSort_levels_mono (s : OptimizedCoffmanGrahamSorter) :
    ∀ x lx : Nat, lvlGet s.levels x = some lx →
      lvlGet ((s.EventSort).2).levels x = some lx := by
  intro x lx hx
  rw [OptimizedCoffmanGrahamSorter.EventSort]
  cases hdfs : ((s.graph.Copy).RemoveTransitives).DFSSort with
  | error e => exact hx
  | ok nodes =>
    simp only
    cases hrun : cgLoopE s.width ((s.graph.Copy).RemoveTransitives) nodes
        s.layers s.levels (-1) with
    | error e => exact hx
    | ok q => exact cgLoop_mono (cgLoopE_ok_to_cgLoop hrun) x lx hx

/-- Unfolding equation: `Sort` when the DFS sort fails. -/
theorem Sort_dfs_err {s : CoffmanGrahamSorter} {e : GraffError}
    (h : ((s.graph.Copy).RemoveTransitives).DFSSort = .error e) :
    s.Sort = (.error e, s) := by
  rw [CoffmanGrahamSorter.Sort]
  show (match ((s.graph.Copy).RemoveTransitives).DFSSort with
    | .error e => (Except.error e, s)
    | .ok nodes =>
      match cgLoop s.width ((s.graph.Copy).RemoveTransitives) nodes s.layers s.levels with
      | .error e => (Except.error e, s)
      | .ok p => (Except.ok p.1, _)) = (Except.error e, s)
  rw [h]

/-- Unfolding equation: `Sort` when the layering loop fails. -/
theorem Sort_loop_err {s : CoffmanGrahamSorter} {nodes : List Nat} {e : GraffError}
    (hok : ((s.graph.Copy).RemoveTransitives).DFSSort = .ok nodes)
    (hrun : cgLoop s.width ((s.graph.Copy).RemoveTransitives) nodes s.layers s.levels
      = .error e) :
    s.Sort = (.error e, s) := by
  rw [CoffmanGrahamSorter.Sort]
  show (match ((s.graph.Copy).RemoveTransitives).DFSSort with
    | .error e => (Except.error e, s)
    | .ok nodes =>
      match cgLoop s.width ((s.graph.Copy).RemoveTransitives) nodes s.layers s.levels with
      | .error e => (Except.error e, s)
      | .ok p => (Except.ok p.1, _)) = (Except.error e, s)
  rw [hok]
  show (match cgLoop s.width ((s.graph.Copy).RemoveTransitives) nodes s.layers s.levels with
    | .error e => (Except.error e, s)
    | .ok p => (Except.ok p.1, _)) = (Except.error e, s)
  rw [hrun]

/-- Unfolding equation: `Sort` when both phases succeed. -/
theorem Sort_run {s : CoffmanGrahamSorter} {nodes : List Nat}
    {p : List (List Nat) × List (Nat × Nat)}
    (hok : ((s.graph.Copy).RemoveTransitives).DFSSort = .ok nodes)
    (hrun : cgLoop s.width ((s.graph.Copy).RemoveTransitives) nodes s.layers s.levels
      = .ok p) :
    s.Sort = (.ok p.1, { s with layers := p.1, levels := p.2, level := s.level }) := by
  rw [CoffmanGrahamSorter.Sort]
  show (match ((s.graph.Copy).RemoveTransitives).DFSSort with
    | .error e => (Except.error e, s)
    | .ok nodes =>
      match cgLoop s.width ((s.graph.Copy).RemoveTransitives) nodes s.layers s.levels with
      | .error e => (Except.error e, s)
      | .ok p => (Except.ok p.1, { s with layers := p.1, levels := p.2, level := s.level }))
    = (Except.ok p.1, { s with layers := p.1, levels := p.2, level := s.level })
  rw [hok]
  show (match cgLoop s.width ((s.graph.Copy).RemoveTransitives) nodes s.layers s.levels with
    | .error e => (Except.error e, s)
    | .ok p => (Except.ok p.1, { s with layers := p.1, levels := p.2, level := s.level }))
    = (Except.ok p.1, { s with layers := p.1, levels := p.2, level := s.level })
  rw [hrun]

/-- Unfolding equation: `OrigSort` when the DFS sort fails. -/
theorem OrigSort_dfs_err {s : CoffmanGrahamSorter} {e : GraffError}
    (h : ((s.graph.Copy).RemoveTransitives).DFSSort = .error e) :
    s.OrigSort = .error e := by
  rw [CoffmanGrahamSorter.OrigSort]
  show (match ((s.graph.Copy).RemoveTransitives).DFSSort with
    | .error e => Except.error e
    | .ok nodes =>
      match origLoop s.width ((s.graph.Copy).RemoveTransitives) nodes [] [] with
      | .error e => Except.error e
      | .ok p => Except.ok p.1) = Except.error e
  rw [h]

/-- Unfolding equation: `OrigSort` on a successful DFS sort. -/
theorem OrigSort_ok_dfs {s : CoffmanGrahamSorter} {nodes : List Nat}
    (hok : ((s.graph.Copy).RemoveTransitives).DFSSort = .ok nodes) :
    s.OrigSort = (match origLoop s.width ((s.graph.Copy).RemoveTransitives) nodes [] [] with
      | .error e => Except.error e
      | .ok p => Except.ok p.1) := by
  rw [CoffmanGrahamSorter.OrigSort]
  show (match ((s.graph.Copy).RemoveTransitives).DFSSort with
    | .error e => Except.error e
    | .ok nodes =>
      match origLoop s.width ((s.graph.Copy).RemoveTransitives) nodes [] [] with
      | .error e => Except.error e
      | .ok p => Except.ok p.1) = _
  rw [hok]

/-- Unfolding equation: `EventSort` when the DFS sort fails. -/
theorem EventSort_dfs_err {s : OptimizedCoffmanGrahamSorter} {e : GraffError}
    (h : ((s.graph.Copy).RemoveTransitives).DFSSort = .error e) :
    s.EventSort = (.error e, s) := by
  rw [OptimizedCoffmanGrahamSorter.EventSort]
  show (match ((s.graph.Copy).RemoveTransitives).DFSSort with
    | .error e => (Except.error e, s)
    | .ok nodes =>
      match cgLoopE s.width ((s.graph.Copy).RemoveTransitives) nodes s.layers
          s.levels (-1) with
      | .error e => (Except.error e, s)
      | .ok p => (Except.ok p.1, _)) = (Except.error e, s)
  rw [h]

/-- Unfolding equation: `EventSort` when the layering loop fails. -/
theorem EventSort_loop_err {s : OptimizedCoffmanGrahamSorter} {nodes : List Nat}
    {e : GraffError}
    (hok : ((s.graph.Copy).RemoveTransitives).DFSSort = .ok nodes)
    (hrun : cgLoopE s.width ((s.graph.Copy).RemoveTransitives) nodes s.layers
      s.levels (-1) = .error e) :
    s.EventSort = (.error e, s) := by
  rw [OptimizedCoffmanGrahamSorter.EventSort]
  show (match ((s.graph.Copy).RemoveTransitives).DFSSort with
    | .error e => (Except.error e, s)
    | .ok nodes =>
      match cgLoopE s.width ((s.graph.Copy).RemoveTransitives) nodes s.layers
          s.levels (-1) with
      | .error e => (Except.error e, s)
      | .ok p => (Except.ok p.1, _)) = (Except.error e, s)
  rw [hok]
  show (match cgLoopE s.width ((s.graph.Copy).RemoveTransitives) nodes s.layers
      s.levels (-1) with
    | .error e => (Except.error e, s)
    | .ok p => (Except.ok p.1, _)) = (Except.error e, s)
  rw [hrun]

/-- Unfolding equation: `EventSort` when both phases succeed. -/
theorem EventSort_run {s : OptimizedCoffmanGrahamSorter} {nodes : List Nat}
    {q : List (List Nat) × List (Nat × Nat) × Int}
    (hok : ((s.graph.Copy).RemoveTransitives).DFSSort = .ok nodes)
    (hrun : cgLoopE s.width ((s.graph.Copy).RemoveTransitives) nodes s.layers
      s.levels (-1) = .ok q) :
    s.EventSort = (.ok q.1, { s with layers := q.1, levels := q.2.1, level := q.2.2 }) := by
  rw [OptimizedCoffmanGrahamSorter.EventSort]
  show (match ((s.graph.Copy).RemoveTransitives).DFSSort with
    | .error e => (Except.error e, s)
    | .ok nodes =>
      match cgLoopE s.width ((s.graph.Copy).RemoveTransitives) nodes s.layers
          s.levels (-1) with
      | .error e => (Except.error e, s)
      | .ok q => (Except.ok q.1, { s with layers := q.1, levels := q.2.1, level := q.2.2 }))
    = (Except.ok q.1, { s with layers := q.1, levels := q.2.1, level := q.2.2 })
  rw [hok]
  show (match cgLoopE s.width ((s.graph.Copy).RemoveTransitives) nodes s.layers
      s.levels (-1) with
    | .error e => (Except.error e, s)
    | .ok q => (Except.ok q.1, { s with layers := q.1, levels := q.2.1, level := q.2.2 }))
    = (Except.ok q.1, { s with layers := q.1, levels := q.2.1, level := q.2.2 })
  rw [hrun]

/-! ### The claims -/

/-- C1: for every well-formed DAG, `DFSSort` returns a sequence that is a
permutation of the graph's node set in which, for every edge `(u,v)`,
`u` appears before `v` (strictly smaller first-occurrence position). -/
theorem claim_C1 (g : DirectedGraph) (hWF : WF g) (hA : Acyclic g) :
    ∃ l : List Nat, g.DFSSort = .ok l ∧ l.Perm g.nodes ∧
      ∀ u v : Nat, g.EdgeExists u v = true →
        u ∈ l ∧ v ∈ l ∧ idxO l u < idxO l v := by
  obtain ⟨l, hl⟩ := DFSSort_acyclic_ok hWF hA
  obtain ⟨hperm, _, htopo⟩ := DFSSort_ok_spec hWF hl
  exact ⟨l, hl, hperm, htopo⟩

/-- Witness for C1 at the DAG `1→2→3`. -/
theorem claim_C1_witness :
    WF ⟨[1, 2, 3], [(1, 2), (2, 3)]⟩ ∧ Acyclic ⟨[1, 2, 3], [(1, 2), (2, 3)]⟩ ∧
      (∃ l : List Nat,
        DirectedGraph.DFSSort ⟨[1, 2, 3], [(1, 2), (2, 3)]⟩ = .ok l ∧
          l.Perm [1, 2, 3] ∧
          ∀ u v : Nat,
            DirectedGraph.EdgeExists ⟨[1, 2, 3], [(1, 2), (2, 3)]⟩ u v = true →
              u ∈ l ∧ v ∈ l ∧ idxO l u < idxO l v) :=
  ⟨⟨by decide, by decide⟩, Acyclic_of_increasing (by decide),
    claim_C1 ⟨[1, 2, 3], [(1, 2), (2, 3)]⟩ ⟨by decide, by decide⟩
      (Acyclic_of_increasing (by decide))⟩

/-- C2: for every well-formed DAG and every width `≥ 1`,
`CoffmanGrahamSort(width)` succeeds with layers that never exceed the
width, and every edge `(u,v)` of the transitively reduced graph goes from
a strictly lower layer to a strictly higher one. -/
theorem claim_C2 (g : DirectedGraph) (w : Int) (hWF : WF g) (hA : Acyclic g)
    (hw : 1 ≤ w) :
    ∃ layers : List (List Nat), g.CoffmanGrahamSort w = .ok layers ∧
      (∀ lay ∈ layers, (lay.length : Int) ≤ w) ∧
      (∀ u v : Nat, ((g.Copy).RemoveTransitives).EdgeExists u v = true →
        ∃ i j : Nat, i < j ∧ u ∈ layers.getD i [] ∧ v ∈ layers.getD j []) := by
  have hWFr : WF ((g.Copy).RemoveTransitives) := WF_RemoveTransitives hWF
  have hAr : Acyclic ((g.Copy).RemoveTransitives) := Acyclic_RemoveTransitives hA
  obtain ⟨nodes, hok⟩ := DFSSort_acyclic_ok hWFr hAr
  obtain ⟨hperm, hnodup, htopo⟩ := DFSSort_ok_spec hWFr hok
  have hpred : PredOK ((g.Copy).RemoveTransitives) nodes [] :=
    PredOK_of_topo hWFr hok []
  obtain ⟨p, hrun⟩ :=
    @cgLoop_ok w ((g.Copy).RemoveTransitives) nodes [] [] hnodup hpred
  have hres : g.CoffmanGrahamSort w = .ok p.1 := by
    rw [DirectedGraph.CoffmanGrahamSort, CoffmanGrahamSorter.Sort]
    show (match ((g.Copy).RemoveTransitives).DFSSort with
      | .error e => (Except.error e, NewCoffmanGrahamSorter g w)
      | .ok nodes =>
        match cgLoop w ((g.Copy).RemoveTransitives) nodes [] [] with
        | .error e => (Except.error e, NewCoffmanGrahamSorter g w)
        | .ok p => (Except.ok p.1, _)).1 = Except.ok p.1
    rw [hok]
    show (match cgLoop w ((g.Copy).RemoveTransitives) nodes [] [] with
      | .error e => (Except.error e, NewCoffmanGrahamSorter g w)
      | .ok p => (Except.ok p.1, _)).1 = Except.ok p.1
    rw [hrun]
  obtain ⟨h1, h2, h3⟩ := cgLoop_master hnodup hpred
    (by intro x lx hx; cases hx) (by intro x lx hx; cases hx) hrun
  have hwidth := cgLoop_width hw (by intro lay hl; cases hl) hrun
  refine ⟨p.1, hres, hwidth, ?_⟩
  intro u v he
  obtain ⟨_, hvmem, _⟩ := htopo u v he
  obtain ⟨lv, hlv⟩ := Option.isSome_iff_exists.mp (h2 v hvmem)
  obtain ⟨lu, hlu, hlt⟩ := h3 u v lv he hvmem rfl hlv
  obtain ⟨_, humem'⟩ := h1 u lu hlu
  obtain ⟨_, hvmem'⟩ := h1 v lv hlv
  exact ⟨lu, lv, hlt, humem', hvmem'⟩

/-- Witness for C2 at the DAG `1→2→3`, `1→3` (transitive), isolated `4`,
width `2`. -/
theorem claim_C2_witness :
    WF ⟨[1, 2, 3, 4], [(1, 2), (2, 3), (1, 3)]⟩ ∧
    Acyclic ⟨[1, 2, 3, 4], [(1, 2), (2, 3), (1, 3)]⟩ ∧ (1 : Int) ≤ 2 ∧
      (∃ layers : List (List Nat),
        DirectedGraph.CoffmanGrahamSort ⟨[1, 2, 3, 4], [(1, 2), (2, 3), (1, 3)]⟩ 2
            = .ok layers ∧
          (∀ lay ∈ layers, (lay.length : Int) ≤ 2) ∧
          (∀ u v : Nat,
            (((DirectedGraph.Copy ⟨[1, 2, 3, 4], [(1, 2), (2, 3), (1, 3)]⟩)).RemoveTransitives).EdgeExists
                u v = true →
              ∃ i j : Nat, i < j ∧ u ∈ layers.getD i [] ∧ v ∈ layers.getD j [])) :=
  ⟨⟨by decide, by decide⟩, Acyclic_of_increasing (by decide), by decide,
    claim_C2 ⟨[1, 2, 3, 4], [(1, 2), (2, 3), (1, 3)]⟩ 2 ⟨by decide, by decide⟩
      (Acyclic_of_increasing (by decide)) (by decide)⟩

/-- C3: on a well-formed graph containing a cycle, `DFSSort` fails with
the cyclic-graph error, and both layering entry points return that same
error unchanged. -/
theorem claim_C3 (g : DirectedGraph) (hWF : WF g) (hC : Cyclic g) :
    g.DFSSort = .error .cyclicGraph ∧
    (∀ s : CoffmanGrahamSorter, s.graph = g →
      (s.Sort).1 = .error .cyclicGraph) ∧
    (∀ s : OptimizedCoffmanGrahamSorter, s.graph = g →
      (s.EventSort).1 = .error .cyclicGraph) := by
  have h1 : g.DFSSort = .error .cyclicGraph := DFSSort_cyclic_err hWF hC
  have hRT : g.RemoveTransitives = g := RemoveTransitives_eq_of_err h1
  refine ⟨h1, ?_, ?_⟩
  · intro s hs
    rw [CoffmanGrahamSorter.Sort]
    show (match ((s.graph.Copy).RemoveTransitives).DFSSort with
      | .error e => (Except.error e, s)
      | .ok nodes =>
        match cgLoop s.width ((s.graph.Copy).RemoveTransitives) nodes s.layers s.levels with
        | .error e => (Except.error e, s)
        | .ok p => (Except.ok p.1, _)).1 = Except.error GraffError.cyclicGraph
    rw [hs]
    show (match (g.RemoveTransitives).DFSSort with
      | .error e => (Except.error e, _)
      | .ok nodes => _).1 = Except.error GraffError.cyclicGraph
    rw [hRT, h1]
  · intro s hs
    rw [OptimizedCoffmanGrahamSorter.EventSort]
    show (match ((s.graph.Copy).RemoveTransitives).DFSSort with
      | .error e => (Except.error e, s)
      | .ok nodes =>
        match cgLoopE s.width ((s.graph.Copy).RemoveTransitives) nodes s.layers
            s.levels (-1) with
        | .error e => (Except.error e, s)
        | .ok p => (Except.ok p.1, _)).1 = Except.error GraffError.cyclicGraph
    rw [hs]
    show (match (g.RemoveTransitives).DFSSort with
      | .error e => (Except.error e, _)
      | .ok nodes => _).1 = Except.error GraffError.cyclicGraph
    rw [hRT, h1]

/-- Witness for C3 at the two-cycle `1→2→1`. -/
theorem claim_C3_witness :
    WF ⟨[1, 2], [(1, 2), (2, 1)]⟩ ∧ Cyclic ⟨[1, 2], [(1, 2), (2, 1)]⟩ ∧
      (DirectedGraph.DFSSort ⟨[1, 2], [(1, 2), (2, 1)]⟩ = .error .cyclicGraph ∧
        (∀ s : CoffmanGrahamSorter, s.graph = ⟨[1, 2], [(1, 2), (2, 1)]⟩ →
          (s.Sort).1 = .error .cyclicGraph) ∧
        (∀ s : OptimizedCoffmanGrahamSorter, s.graph = ⟨[1, 2], [(1, 2), (2, 1)]⟩ →
          (s.EventSort).1 = .error .cyclicGraph)) :=
  ⟨⟨by decide, by decide⟩,
    ⟨1, 2, by decide, Relation.ReflTransGen.single (by decide)⟩,
    claim_C3 ⟨[1, 2], [(1, 2), (2, 1)]⟩ ⟨by decide, by decide⟩
      ⟨1, 2, by decide, Relation.ReflTransGen.single (by decide)⟩⟩

/-- C4: an incremental sorter that has already produced a layering for
`g` keeps every previously recorded level unchanged when its graph is
extended (nodes and edges only added) and the sort is re-invoked. -/
theorem claim_C4 (g g' : DirectedGraph) (w : Int)
    (hnodes : ∀ n ∈ g.nodes, n ∈ g'.nodes)
    (hedges : ∀ e ∈ g.edges, e ∈ g'.edges)
    (hL : ∃ L, ((NewOptimizedCoffmanGrahamSorter g w).EventSort).1 = .ok L) :
    ∀ x lx : Nat,
      lvlGet (((NewOptimizedCoffmanGrahamSorter g w).EventSort).2).levels x = some lx →
      lvlGet ((OptimizedCoffmanGrahamSorter.EventSort
          { ((NewOptimizedCoffmanGrahamSorter g w).EventSort).2 with
            graph := g' }).2).levels x = some lx := by
  intro x lx hx
  exact EventSort_levels_mono _ x lx hx

/-- Witness for C4: layer `1→2` with width 2, then extend by node `3` and
edge `2→3` and re-sort. -/
theorem claim_C4_witness :
    (∀ n ∈ ([1, 2] : List Nat), n ∈ ([1, 2, 3] : List Nat)) ∧
    (∀ e ∈ ([(1, 2)] : List (Nat × Nat)), e ∈ ([(1, 2), (2, 3)] : List (Nat × Nat))) ∧
    (∃ L, ((NewOptimizedCoffmanGrahamSorter ⟨[1, 2], [(1, 2)]⟩ 2).EventSort).1 = .ok L) ∧
    (∀ x lx : Nat,
      lvlGet (((NewOptimizedCoffmanGrahamSorter ⟨[1, 2], [(1, 2)]⟩ 2).EventSort).2).levels
          x = some lx →
      lvlGet ((OptimizedCoffmanGrahamSorter.EventSort
          { ((NewOptimizedCoffmanGrahamSorter ⟨[1, 2], [(1, 2)]⟩ 2).EventSort).2 with
            graph := ⟨[1, 2, 3], [(1, 2), (2, 3)]⟩ }).2).levels x = some lx) :=
  ⟨by decide, by decide, ⟨[[1], [2]], rfl⟩,
    claim_C4 ⟨[1, 2], [(1, 2)]⟩ ⟨[1, 2, 3], [(1, 2), (2, 3)]⟩ 2
      (by decide) (by decide) ⟨[[1], [2]], rfl⟩⟩

/-- C5: on a well-formed graph, `RemoveTransitives` preserves the
reachability relation. -/
theorem claim_C5 (g : DirectedGraph) (hWF : WF g) :
    ∀ a b : Nat, Reach g a b ↔ Reach g.RemoveTransitives a b :=
  RemoveTransitives_Reach_iff hWF

/-- Witness for C5 at the DAG with a transitive edge. -/
theorem claim_C5_witness :
    WF ⟨[1, 2, 3, 4], [(1, 2), (2, 3), (1, 3)]⟩ ∧
    (∀ a b : Nat, Reach ⟨[1, 2, 3, 4], [(1, 2), (2, 3), (1, 3)]⟩ a b ↔
      Reach (DirectedGraph.RemoveTransitives ⟨[1, 2, 3, 4], [(1, 2), (2, 3), (1, 3)]⟩) a b) :=
  ⟨⟨by decide, by decide⟩,
    claim_C5 ⟨[1, 2, 3, 4], [(1, 2), (2, 3), (1, 3)]⟩ ⟨by decide, by decide⟩⟩

/-- C6: `EventGraph.AddEdge(a, b)` then `EventGraph.EdgeExists(a, b)` is
true, while the wrapped `DirectedGraph` stores the edge reversed, which
its own `EdgeExists(b, a)` confirms. -/
theorem claim_C6 (eg : EventGraph) (a b : Nat) :
    ((eg.AddEdge a b).EdgeExists a b = true) ∧
    (((eg.AddEdge a b).graph).EdgeExists b a = true) := by
  constructor
  · show ((eg.graph.AddEdge b a)).EdgeExists b a = true
    exact EdgeExists_AddEdge eg.graph b a
  · exact EdgeExists_AddEdge eg.graph b a

/-- C7: on a well-formed DAG, neither `Sort` nor `EventSort` (from any
sorter state over that graph) ever returns the dependency-order error:
every predecessor in the reduced graph is levelled before its successor
is processed. -/
theorem claim_C7 (g : DirectedGraph) (hWF : WF g) (hA : Acyclic g) :
    (∀ s : CoffmanGrahamSorter, s.graph = g →
      (s.Sort).1 ≠ .error .dependencyOrder) ∧
    (∀ s : OptimizedCoffmanGrahamSorter, s.graph = g →
      (s.EventSort).1 ≠ .error .dependencyOrder) := by
  have hWFr : WF ((g.Copy).RemoveTransitives) := WF_RemoveTransitives hWF
  have hAr : Acyclic ((g.Copy).RemoveTransitives) := Acyclic_RemoveTransitives hA
  obtain ⟨nodes, hok⟩ := DFSSort_acyclic_ok hWFr hAr
  have hnodup : nodes.Nodup := (DFSSort_ok_spec hWFr hok).2.1
  constructor
  · intro s hs
    obtain ⟨p, hrun⟩ := @cgLoop_ok s.width ((g.Copy).RemoveTransitives)
      nodes s.layers s.levels hnodup (PredOK_of_topo hWFr hok s.levels)
    have hok' : ((s.graph.Copy).RemoveTransitives).DFSSort = .ok nodes := by
      rw [hs]; exact hok
    have hrun' : cgLoop s.width ((s.graph.Copy).RemoveTransitives) nodes
        s.layers s.levels = .ok p := by
      rw [hs]; exact hrun
    rw [Sort_run hok' hrun']
    intro hcontra
    cases hcontra
  · intro s hs
    obtain ⟨p, hrun⟩ := @cgLoop_ok s.width ((g.Copy).RemoveTransitives)
      nodes s.layers s.levels hnodup (PredOK_of_topo hWFr hok s.levels)
    have hok' : ((s.graph.Copy).RemoveTransitives).DFSSort = .ok nodes := by
      rw [hs]; exact hok
    cases hrunE : cgLoopE s.width ((s.graph.Copy).RemoveTransitives) nodes
        s.layers s.levels (-1) with
    | error e =>
      exfalso
      have := cgLoopE_err_to_cgLoop hrunE
      rw [hs] at this
      rw [this] at hrun
      cases hrun
    | ok q =>
      rw [EventSort_run hok' hrunE]
      intro hcontra
      cases hcontra

/-- Witness for C7 at the DAG `1→2→3`, `1→3`, width 1 (a sorter state
with persisted levels included). -/
theorem claim_C7_witness :
    WF ⟨[1, 2, 3], [(1, 2), (2, 3), (1, 3)]⟩ ∧
    Acyclic ⟨[1, 2, 3], [(1, 2), (2, 3), (1, 3)]⟩ ∧
    ((∀ s : CoffmanGrahamSorter, s.graph = ⟨[1, 2, 3], [(1, 2), (2, 3), (1, 3)]⟩ →
      (s.Sort).1 ≠ .error .dependencyOrder) ∧
    (∀ s : OptimizedCoffmanGrahamSorter,
      s.graph = ⟨[1, 2, 3], [(1, 2), (2, 3), (1, 3)]⟩ →
      (s.EventSort).1 ≠ .error .dependencyOrder)) :=
  ⟨⟨by decide, by decide⟩, Acyclic_of_increasing (by decide),
    claim_C7 ⟨[1, 2, 3], [(1, 2), (2, 3), (1, 3)]⟩ ⟨by decide, by decide⟩
      (Acyclic_of_increasing (by decide))⟩

/-- Counterexample to C8 as stated: on the fresh sorter over `1→2` with
width 1, `Sort` returns layers `[[1], [2]]` — the last node processed is
`2`, whose layer index is `1` — yet the persisted `level` field afterwards
is `0` (its value before the call), not `1`: in the Go source the
assignment `s.level = level` after the loop reads the outer `level`
variable (initialised from `s.level`), because the `level := -1` inside
the loop body shadows it and dies with each iteration. -/
theorem claim_C8_counterexample :
    ((NewCoffmanGrahamSorter ⟨[1, 2], [(1, 2)]⟩ 1).Sort).1 = .ok [[1], [2]] ∧
    ((NewCoffmanGrahamSorter ⟨[1, 2], [(1, 2)]⟩ 1).Sort).2.level = 0 ∧
    ¬ ((0 : Int) = 1) :=
  ⟨rfl, rfl, by decide⟩

/-- C8 (amended): after a call to `Sort`, the persisted `level` field
equals its value before the call — the loop-local `level` shadows the
outer variable, so the field reflects neither the last node processed nor
the maximum layer index. -/
theorem claim_C8_amended (s : CoffmanGrahamSorter) : ((s.Sort).2).level = s.level := by
  cases hdfs : ((s.graph.Copy).RemoveTransitives).DFSSort with
  | error e => rw [Sort_dfs_err hdfs]
  | ok nodes =>
    cases hrun : cgLoop s.width ((s.graph.Copy).RemoveTransitives) nodes
        s.layers s.levels with
    | error e => rw [Sort_loop_err hdfs hrun]
    | ok p => rw [Sort_run hdfs hrun]

/-- C9: on a well-formed DAG, `RemoveTransitives` is idempotent — the
second application returns the same edge set. -/
theorem claim_C9 (g : DirectedGraph) (hWF : WF g) (hA : Acyclic g) :
    ((g.RemoveTransitives).RemoveTransitives).edges = (g.RemoveTransitives).edges := by
  rw [RemoveTransitives_idem hWF hA]

/-- Witness for C9 at the DAG with a transitive edge. -/
theorem claim_C9_witness :
    WF ⟨[1, 2, 3, 4], [(1, 2), (2, 3), (1, 3)]⟩ ∧
    Acyclic ⟨[1, 2, 3, 4], [(1, 2), (2, 3), (1, 3)]⟩ ∧
    (((DirectedGraph.RemoveTransitives
        ⟨[1, 2, 3, 4], [(1, 2), (2, 3), (1, 3)]⟩).RemoveTransitives).edges
      = (DirectedGraph.RemoveTransitives
          ⟨[1, 2, 3, 4], [(1, 2), (2, 3), (1, 3)]⟩).edges) :=
  ⟨⟨by decide, by decide⟩, Acyclic_of_increasing (by decide),
    claim_C9 ⟨[1, 2, 3, 4], [(1, 2), (2, 3), (1, 3)]⟩ ⟨by decide, by decide⟩
      (Acyclic_of_increasing (by decide))⟩

/-- C10: over the same well-formed graph and width, freshly constructed
sorters give equal results from `Sort`, `OrigSort` and `EventSort` (same
layers, or the same error). -/
theorem claim_C10 (g : DirectedGraph) (w : Int) (hWF : WF g) :
    ((NewCoffmanGrahamSorter g w).Sort).1 = (NewCoffmanGrahamSorter g w).OrigSort ∧
    ((NewOptimizedCoffmanGrahamSorter g w).EventSort).1
      = ((NewCoffmanGrahamSorter g w).Sort).1 := by
  cases hdfs : ((g.Copy).RemoveTransitives).DFSSort with
  | error e =>
    rw [Sort_dfs_err (s := NewCoffmanGrahamSorter g w) hdfs,
      OrigSort_dfs_err (s := NewCoffmanGrahamSorter g w) hdfs,
      EventSort_dfs_err (s := NewOptimizedCoffmanGrahamSorter g w) hdfs]
    exact ⟨rfl, rfl⟩
  | ok nodes =>
    have hnodup : nodes.Nodup :=
      (DFSSort_ok_spec (WF_RemoveTransitives hWF) hdfs).2.1
    have hloops : cgLoop w ((g.Copy).RemoveTransitives) nodes [] []
        = origLoop w ((g.Copy).RemoveTransitives) nodes [] [] :=
      cgLoop_eq_origLoop hnodup (fun n _ => rfl)
    cases hrun : cgLoop w ((g.Copy).RemoveTransitives) nodes [] [] with
    | error e =>
      have horig : origLoop w ((g.Copy).RemoveTransitives) nodes [] [] = .error e := by
        rw [← hloops]; exact hrun
      have h1 : ((NewCoffmanGrahamSorter g w).Sort).1 = .error e := by
        rw [Sort_loop_err (s := NewCoffmanGrahamSorter g w) hdfs hrun]
      have h2 : (NewCoffmanGrahamSorter g w).OrigSort = .error e := by
        rw [OrigSort_ok_dfs (s := NewCoffmanGrahamSorter g w) hdfs]
        show (match origLoop w ((g.Copy).RemoveTransitives) nodes [] [] with
          | .error e => Except.error e
          | .ok p => Except.ok p.1) = Except.error e
        rw [horig]
      cases hrunE : cgLoopE w ((g.Copy).RemoveTransitives) nodes [] [] (-1) with
      | error e' =>
        have he' : e' = e := by
          have := cgLoopE_err_to_cgLoop hrunE
          rw [this] at hrun
          cases hrun
          rfl
        subst he'
        have h3 : ((NewOptimizedCoffmanGrahamSorter g w).EventSort).1 = .error e' := by
          rw [EventSort_loop_err (s := NewOptimizedCoffmanGrahamSorter g w) hdfs hrunE]
        rw [h1, h2, h3]
        exact ⟨rfl, rfl⟩
      | ok q =>
        exfalso
        have := cgLoopE_ok_to_cgLoop hrunE
        rw [this] at hrun
        cases hrun
    | ok p =>
      have horig : origLoop w ((g.Copy).RemoveTransitives) nodes [] [] = .ok p := by
        rw [← hloops]; exact hrun
      have h1 : ((NewCoffmanGrahamSorter g w).Sort).1 = .ok p.1 := by
        rw [Sort_run (s := NewCoffmanGrahamSorter g w) hdfs hrun]
      have h2 : (NewCoffmanGrahamSorter g w).OrigSort = .ok p.1 := by
        rw [OrigSort_ok_dfs (s := NewCoffmanGrahamSorter g w) hdfs]
        show (match origLoop w ((g.Copy).RemoveTransitives) nodes [] [] with
          | .error e => Except.error e
          | .ok p => Except.ok p.1) = Except.ok p.1
        rw [horig]
      cases hrunE : cgLoopE w ((g.Copy).RemoveTransitives) nodes [] [] (-1) with
      | error e =>
        exfalso
        have := cgLoopE_err_to_cgLoop hrunE
        rw [this] at hrun
        cases hrun
      | ok q =>
        have hq : p = (q.1, q.2.1) := by
          have := cgLoopE_ok_to_cgLoop hrunE
          rw [this] at hrun
          cases hrun
          rfl
        have h3 : ((NewOptimizedCoffmanGrahamSorter g w).EventSort).1 = .ok q.1 := by
          rw [EventSort_run (s := NewOptimizedCoffmanGrahamSorter g w) hdfs hrunE]
        rw [h1, h2, h3, hq]
        exact ⟨rfl, rfl⟩

/-- Witness for C10 at the DAG with a transitive edge, width 2. -/
theorem claim_C10_witness :
    WF ⟨[1, 2, 3, 4], [(1, 2), (2, 3), (1, 3)]⟩ ∧
    (((NewCoffmanGrahamSorter ⟨[1, 2, 3, 4], [(1, 2), (2, 3), (1, 3)]⟩ 2).Sort).1
        = (NewCoffmanGrahamSorter ⟨[1, 2, 3, 4], [(1, 2), (2, 3), (1, 3)]⟩ 2).OrigSort ∧
      ((NewOptimizedCoffmanGrahamSorter
          ⟨[1, 2, 3, 4], [(1, 2), (2, 3), (1, 3)]⟩ 2).EventSort).1
        = ((NewCoffmanGrahamSorter ⟨[1, 2, 3, 4], [(1, 2), (2, 3), (1, 3)]⟩ 2).Sort).1) :=
  ⟨⟨by decide, by decide⟩,
    claim_C10 ⟨[1, 2, 3, 4], [(1, 2), (2, 3), (1, 3)]⟩ 2 ⟨by decide, by decide⟩⟩

end Graff
